import Mathlib

/-!
# junekimdev/hash: the argon2id hash text format

A shallow embedding of `hash.go` (`Run`, `Verify`, `decodeHash`, `RunSha1`)
together with the parts of the Go standard library the four functions call.

Modelling conventions

* A Go `string` is modelled as `List Char`: the sequence of code points of a
  valid UTF-8 text.  Every character the code inspects (`$`, `v`, `=`, `m`,
  `t`, `p`, `,`, the digits, the sign, the base64 alphabet, CR, LF) is ASCII,
  and a non-ASCII character is rejected by the base64 decoder at its first
  byte, so byte offsets and character offsets coincide wherever the decoder
  reports one.
* A Go `byte` is `Fin 256`; `uint32`, `uint8` and `int` values are `Nat`/`Int`
  with the range checks and the `% 2^32` conversions written out.  `int` is
  64 bits wide.
* Functions returning `(..., error)` with `nil` results on failure are
  `Except GoError _`; `(bool, error)` and `(string, error)` are pairs with an
  `Option GoError`.
* `crypto/rand.Read`, the SHA-1 digest and the key that `argon2.IDKey`
  derives are parameters.  The panics of `argon2.IDKey` (fewer than one round,
  fewer than one thread, a key of length 0) are modelled in `argon2IDKey`.
* Exhaustion of memory is not modelled: `argon2.IDKey` allocates `memory`
  KiB, and the model takes every such allocation to succeed.
-/

namespace Hash

/-- A Go `byte`. -/
abbrev Byte := Fin 256

/-- The `error` values that can reach a caller of `decodeHash`, `Verify` and
`Run`.  `ErrInvalidHash` and `ErrIncompatibleVersion` are the two package
variables of `hash.go`; the others are the errors of `fmt.Sscanf`
(`io.EOF`, `io.ErrUnexpectedEOF`, `errors.New(msg)`, `*strconv.NumError`),
of `base64` (`CorruptInputError`) and of the random source.  `runtimePanic`
is not an error value: it marks a run-time panic (index out of range, the
panics of `argon2.IDKey`), after which the function returns nothing. -/
inductive GoError where
  | ErrInvalidHash
  | ErrIncompatibleVersion
  | EOF
  | ErrUnexpectedEOF
  | scanError (msg : String)
  | rangeError (fn : String) (num : List Char)
  | syntaxError (fn : String) (num : List Char)
  | CorruptInputError (offset : Nat)
  | randError
  | runtimePanic (msg : String)
  deriving DecidableEq, Repr

/-- The hash params of `hash.go`. -/
structure params where
  memory : Nat
  iterations : Nat
  parallelism : Nat
  saltLength : Nat
  keyLength : Nat
  deriving DecidableEq, Repr

/-- The fields of a `params` value fit their Go types
(`uint32`, `uint32`, `uint8`, `uint32`, `uint32`). -/
def params.inRange (p : params) : Prop :=
  p.memory < 2 ^ 32 ∧ p.iterations < 2 ^ 32 ∧ p.parallelism < 2 ^ 8 ∧
    p.saltLength < 2 ^ 32 ∧ p.keyLength < 2 ^ 32

instance (p : params) : Decidable p.inRange := by
  unfold params.inRange
  infer_instance

/-- The package variable `hashParam`. -/
def hashParam : params :=
  { memory := 64 * 1024, iterations := 3, parallelism := 2, saltLength := 16, keyLength := 32 }

/-- The constant `argon2.Version` (`0x13`). -/
def argon2Version : Int := 0x13

/-! ## `strings.Split` -/

/-- `strings.Split(s, sep)` for a one-character separator: the substrings
between the separators, one more than there are separators. -/
def Split : List Char → Char → List (List Char)
  | [], _ => [[]]
  | c :: cs, sep =>
    if c = sep then [] :: Split cs sep
    else
      match Split cs sep with
      | [] => [[c]]
      | f :: fs => (c :: f) :: fs

/-! ## `fmt.Sscanf` -/

/-- The `isSpace` of `fmt/scan.go` (its `space` table). -/
def isSpace (r : Char) : Bool :=
  let rx := r.toNat
  if rx ≥ 65536 then false
  else
    (0x0009 ≤ rx && rx ≤ 0x000d) || rx == 0x0020 || rx == 0x0085 || rx == 0x00a0 ||
    rx == 0x1680 || (0x2000 ≤ rx && rx ≤ 0x200a) || (0x2028 ≤ rx && rx ≤ 0x2029) ||
    rx == 0x202f || rx == 0x205f || rx == 0x3000

/-- The `(*ss).SkipSpace` of `fmt/scan.go` with `nlIsSpace = false`, on the
unread input: the input left after the spaces, or the `unexpected newline`
error. -/
def SkipSpace : List Char → Except GoError (List Char)
  | [] => .ok []
  | r :: rest =>
    if r = '\r' ∧ rest.head? = some '\n' then SkipSpace rest
    else if r = '\n' then .error (.scanError "unexpected newline")
    else if !isSpace r then .ok (r :: rest)
    else SkipSpace rest

/-- The `(*ss).advance` of `fmt/scan.go` on a run of literal format
characters (no space, no `%`): every format character must be the next input
character.  End of input is `io.ErrUnexpectedEOF` (`mustReadRune`), a
different character makes `advance` return `-1`, which `doScanf` reports as
`input does not match format`. -/
def advance : List Char → List Char → Except GoError (List Char)
  | [], input => .ok input
  | _ :: _, [] => .error .ErrUnexpectedEOF
  | fmtc :: format, inputc :: input =>
    if fmtc ≠ inputc then .error (.scanError "input does not match format")
    else advance format input

/-- The digit string of `getBase` for the verb `d`. -/
def decimalDigits : List Char := "0123456789".toList

/-- The sign string of `fmt/scan.go`. -/
def sign : List Char := "+-".toList

/-- The loop `for s.accept(digits) {}` of `scanNumber`: the accepted
characters and the input left. -/
def acceptAll (ok : List Char) : List Char → List Char × List Char
  | [] => ([], [])
  | r :: rest =>
    if ok.contains r then ((acceptAll ok rest).1.cons r, (acceptAll ok rest).2)
    else ([], r :: rest)

/-- The `(*ss).scanNumber(digits, false)` of `fmt/scan.go`; `buf` is the token
buffer (a sign, or empty).  Returns the token and the input left. -/
def scanNumber (buf : List Char) (input : List Char) :
    Except GoError (List Char × List Char) :=
  match input with
  | [] => .error .EOF
  | r :: rest =>
    if decimalDigits.contains r then
      .ok (buf ++ r :: (acceptAll decimalDigits rest).1, (acceptAll decimalDigits rest).2)
    else .error (.scanError "expected integer")

/-- The digit loop of `strconv.ParseUint(s, 10, 64)`: `n` is the value so
far, `s0` the whole token (for the error). -/
def ParseUintLoop (s0 : List Char) : List Char → Nat → Except GoError Nat
  | [], n => .ok n
  | c :: cs, n =>
    if '0' ≤ c ∧ c ≤ '9' then
      if n ≥ (2 ^ 64 - 1) / 10 + 1 then .error (.rangeError "ParseUint" s0)
      else if n * 10 + (c.toNat - '0'.toNat) > 2 ^ 64 - 1 then
        .error (.rangeError "ParseUint" s0)
      else ParseUintLoop s0 cs (n * 10 + (c.toNat - '0'.toNat))
    else .error (.syntaxError "ParseUint" s0)

/-- The function `strconv.ParseUint(s, 10, 64)`. -/
def ParseUint (s : List Char) : Except GoError Nat :=
  match s with
  | [] => .error (.syntaxError "ParseUint" s)
  | _ :: _ => ParseUintLoop s s 0

/-- The function `strconv.ParseInt(s, 10, 64)`: the sign is picked off, the
rest goes through `ParseUint` (which yields `2^64 - 1` on a range error) and
the value is checked against the cutoff `2^63`. -/
def ParseInt (s0 : List Char) : Except GoError Int :=
  match s0 with
  | [] => .error (.syntaxError "ParseInt" s0)
  | c :: cs =>
    let neg := c = '-'
    let s := if c = '+' ∨ c = '-' then cs else s0
    match ParseUint s with
    | .error (.rangeError _ _) =>
      .error (.rangeError "ParseInt" s0)
    | .error _ => .error (.syntaxError "ParseInt" s0)
    | .ok un =>
      if ¬ neg ∧ un ≥ 2 ^ 63 then .error (.rangeError "ParseInt" s0)
      else if neg ∧ un > 2 ^ 63 then .error (.rangeError "ParseInt" s0)
      else .ok (if neg then -(un : Int) else (un : Int))

/-- The `(*ss).scanInt('d', 64)` of `fmt/scan.go`: skip spaces, require input,
accept one sign, scan the digits, convert with `strconv.ParseInt`.  With
`bitSize = 64` the final overflow check `(i << 0) >> 0 != i` cannot fail.
Returns the value and the input left. -/
def scanInt (input : List Char) : Except GoError (Int × List Char) :=
  match SkipSpace input with
  | .error e => .error e
  | .ok [] => .error .EOF
  | .ok (r :: rest) =>
    match scanNumber (if sign.contains r then [r] else [])
        (if sign.contains r then rest else r :: rest) with
    | .error e => .error e
    | .ok (tok, left) =>
      match ParseInt tok with
      | .error e => .error e
      | .ok i => .ok (i, left)

/-- The `(*ss).scanUint('d', bitSize)` of `fmt/scan.go`: skip spaces, require
input, scan the digits (no sign), convert with `strconv.ParseUint` and check
that the value fits `bitSize` bits. -/
def scanUint (bitSize : Nat) (input : List Char) : Except GoError (Nat × List Char) :=
  match SkipSpace input with
  | .error e => .error e
  | .ok [] => .error .EOF
  | .ok (r :: rest) =>
    match scanNumber [] (r :: rest) with
    | .error e => .error e
    | .ok (tok, left) =>
      match ParseUint tok with
      | .error e => .error e
      | .ok i =>
        if ((i <<< (64 - bitSize)) % 2 ^ 64) >>> (64 - bitSize) ≠ i then
          .error (.scanError ("unsigned integer overflow on token " ++ String.mk tok))
        else .ok (i, left)

/-- The constant `hugeWid` of `fmt/scan.go`.  A scan state starts with
`limit = argLimit = hugeWid`, a verb without width leaves `argLimit` at
`limit`, and `(*ss).ReadRune` returns end of input once `count`, the number of
characters read and not unread, has reached `argLimit`: one call of `Sscanf`
sees the first `hugeWid` characters of its string and no more. -/
def hugeWid : Nat := 1 <<< 30

/-- The `(*ss).doScanf` of `fmt/scan.go` for the format `v=%d` and an `int`
operand, on the characters the scan state lets through: it matches the
literal `v=`, skips spaces, scans one integer and returns; input left after
the integer is not looked at. -/
def doScanfVersion (input : List Char) : Except GoError Int :=
  match advance "v=".toList input with
  | .error e => .error e
  | .ok s1 =>
    match SkipSpace s1 with
    | .error e => .error e
    | .ok s2 =>
      match scanInt s2 with
      | .error e => .error e
      | .ok (version, _) => .ok version

/-- The call `fmt.Sscanf(str, "v=%d", &version)` with `version` an `int`:
`doScanf` on the first `hugeWid` characters of `str`. -/
def SscanfVersion (str : List Char) : Except GoError Int :=
  doScanfVersion (str.take hugeWid)

/-- One `<literal>%d` step of `doScanf` for an unsigned operand of `bitSize`
bits: match the literal, skip spaces, scan the number. -/
def scanfUintStep (lit : List Char) (bitSize : Nat) (input : List Char) :
    Except GoError (Nat × List Char) :=
  match advance lit input with
  | .error e => .error e
  | .ok s1 =>
    match SkipSpace s1 with
    | .error e => .error e
    | .ok s2 => scanUint bitSize s2

/-- The `(*ss).doScanf` of `fmt/scan.go` for the format `m=%d,t=%d,p=%d` and
operands `uint32`, `uint32`, `uint8`, on the characters the scan state lets
through; input left after the third number is not looked at. -/
def doScanfParams (input : List Char) : Except GoError (Nat × Nat × Nat) :=
  match scanfUintStep "m=".toList 32 input with
  | .error e => .error e
  | .ok (memory, s1) =>
    match scanfUintStep ",t=".toList 32 s1 with
    | .error e => .error e
    | .ok (iterations, s2) =>
      match scanfUintStep ",p=".toList 8 s2 with
      | .error e => .error e
      | .ok (parallelism, _) => .ok (memory, iterations, parallelism)

/-- The call `fmt.Sscanf(str, "m=%d,t=%d,p=%d", &p.memory, &p.iterations,
&p.parallelism)`: `doScanf` on the first `hugeWid` characters of `str`. -/
def SscanfParams (str : List Char) : Except GoError (Nat × Nat × Nat) :=
  doScanfParams (str.take hugeWid)

/-! ## `fmt.Sprintf` -/

/-- The base-10 loop of `(*fmt).fmtInteger`: digits are written from the
right while `u >= 10`, then the last digit.  `fuel` bounds the number of
steps. -/
def fmtDigits : Nat → Nat → List Char → List Char
  | 0, u, acc => Char.ofNat (48 + u % 10) :: acc
  | fuel + 1, u, acc =>
    if u ≥ 10 then fmtDigits fuel (u / 10) (Char.ofNat (48 + (u - u / 10 * 10)) :: acc)
    else Char.ofNat (48 + u) :: acc

/-- The verb `%d` on an unsigned value. -/
def fmtUint (u : Nat) : List Char := fmtDigits u u []

/-- The verb `%d` on an `int`: a `-` before the digits of a negative value. -/
def fmtInt (i : Int) : List Char :=
  if i < 0 then '-' :: fmtUint i.natAbs else fmtUint i.natAbs

/-- The call `fmt.Sprintf("$argon2id$v=%d$m=%d,t=%d,p=%d$%s$%s", version,
memory, iterations, parallelism, salt, hash)` of `Run`. -/
def Sprintf (version : Int) (memory iterations parallelism : Nat)
    (salt hash : List Char) : List Char :=
  "$argon2id$v=".toList ++ fmtInt version ++ "$m=".toList ++ fmtUint memory ++
    ",t=".toList ++ fmtUint iterations ++ ",p=".toList ++ fmtUint parallelism ++
    "$".toList ++ salt ++ "$".toList ++ hash

/-! ## `encoding/base64`, `RawStdEncoding` -/

/-- The standard alphabet `encodeStd`. -/
def encodeStd : List Char :=
  "ABCDEFGHIJKLMNOPQRSTUVWXYZabcdefghijklmnopqrstuvwxyz0123456789+/".toList

/-- The lookup `enc.encode[i]`. -/
def encodeChar (i : Nat) : Char := encodeStd.getD i 'A'

/-- The table `enc.decodeMap`: the index of a character of the alphabet,
`0xff` for every other byte. -/
def decodeMap (c : Char) : Nat :=
  if encodeStd.contains c then encodeStd.indexOf c else 0xff

/-- The method `RawStdEncoding.EncodeToString`: three bytes give four
characters, a remainder of one byte two, of two bytes three; no padding. -/
def EncodeToString : List Byte → List Char
  | [] => []
  | [b0] =>
    let val := b0.val <<< 16
    [encodeChar (val >>> 18 &&& 0x3F), encodeChar (val >>> 12 &&& 0x3F)]
  | [b0, b1] =>
    let val := b0.val <<< 16 ||| b1.val <<< 8
    [encodeChar (val >>> 18 &&& 0x3F), encodeChar (val >>> 12 &&& 0x3F),
      encodeChar (val >>> 6 &&& 0x3F)]
  | b0 :: b1 :: b2 :: rest =>
    let val := b0.val <<< 16 ||| b1.val <<< 8 ||| b2.val
    encodeChar (val >>> 18 &&& 0x3F) :: encodeChar (val >>> 12 &&& 0x3F) ::
      encodeChar (val >>> 6 &&& 0x3F) :: encodeChar (val &&& 0x3F) :: EncodeToString rest

/-- The end of `decodeQuantum`: the 6-bit values collected in `dbuf` (two,
three or four of them) are packed into `val` and the first `dlen - 1` bytes of
it are written out (non-strict mode: left-over bits are dropped). -/
def quantumBytes (dbuf : List Nat) : List Byte :=
  let val := dbuf.getD 0 0 <<< 18 ||| dbuf.getD 1 0 <<< 12 ||| dbuf.getD 2 0 <<< 6 |||
    dbuf.getD 3 0
  ([Fin.ofNat (val >>> 16), Fin.ofNat (val >>> 8), Fin.ofNat (val >>> 0)] : List Byte).take
    (dbuf.length - 1)

/-- The loop of `(*Encoding).Decode` over `decodeQuantum` for an encoding
without padding, non-strict: `si` is the offset in the source, `dbuf` the
6-bit values of the quantum being read.  CR and LF are skipped, every other
character outside the alphabet is `CorruptInputError(si)`, and the input may
not end one character into a quantum. -/
def decodeLoop : List Char → Nat → List Nat → Except GoError (List Byte)
  | [], si, dbuf =>
    if dbuf.length = 0 then .ok []
    else if dbuf.length = 1 then .error (.CorruptInputError (si - 1))
    else .ok (quantumBytes dbuf)
  | c :: cs, si, dbuf =>
    if decodeMap c ≠ 0xff then
      if dbuf.length + 1 = 4 then
        match decodeLoop cs (si + 1) [] with
        | .error e => .error e
        | .ok out => .ok (quantumBytes (dbuf ++ [decodeMap c]) ++ out)
      else decodeLoop cs (si + 1) (dbuf ++ [decodeMap c])
    else if c = '\n' ∨ c = '\r' then decodeLoop cs (si + 1) dbuf
    else .error (.CorruptInputError si)

/-- The method `RawStdEncoding.DecodeString`. -/
def DecodeString (s : List Char) : Except GoError (List Byte) :=
  decodeLoop s 0 []

/-! ## `crypto/subtle` -/

/-- The function `subtle.ConstantTimeByteEq`: `int((uint32(x^y) - 1) >> 31)`. -/
def ConstantTimeByteEq (x y : Nat) : Nat :=
  (((x ^^^ y) + 2 ^ 32 - 1) % 2 ^ 32) >>> 31

/-- The function `subtle.ConstantTimeCompare`: `0` when the lengths differ,
else the bytes are xor-ed pairwise, the results or-ed together and compared
with zero. -/
def ConstantTimeCompare (x y : List Byte) : Nat :=
  if x.length ≠ y.length then 0
  else ConstantTimeByteEq ((x.zip y).foldl (fun v xy => v ||| (xy.1.val ^^^ xy.2.val)) 0) 0

/-! ## `encoding/hex` -/

/-- The table `hextable` of `encoding/hex`. -/
def hextable : List Char := "0123456789abcdef".toList

/-- The function `hex.EncodeToString`: two characters of `hextable` per byte,
`hextable[v>>4]` and `hextable[v&0x0f]`. -/
def hexEncodeToString : List Byte → List Char
  | [] => []
  | v :: rest =>
    hextable.getD (v.val >>> 4) '0' :: hextable.getD (v.val &&& 0x0f) '0' ::
      hexEncodeToString rest

/-! ## `hash.go` -/

/-- The conversion `[]byte(text)`: the UTF-8 bytes of the text. -/
def stringBytes (text : List Char) : List Byte :=
  text.flatMap (fun c => (String.utf8EncodeChar c).map (fun b => Fin.ofNat b.toNat))

/-- The type of the key derivation of argon2id: the key that
`argon2.IDKey(password, salt, time, memory, threads, keyLen)` returns when it
returns. -/
abbrev KDF := List Byte → List Byte → Nat → Nat → Nat → Nat → List Byte

/-- The call `argon2.IDKey(password, salt, time, memory, threads, keyLen)`.
Its `deriveKey` panics with `argon2: number of rounds too small` when
`time < 1` and with `argon2: parallelism degree too low` when `threads < 1`;
with `keyLen = 0` its `blake2bHash` gets a nil hash from `blake2b.New(0, nil)`
and writes to it, a nil pointer dereference.  Otherwise it returns the derived
key. -/
def argon2IDKey (IDKey : KDF) (password salt : List Byte) (time memory threads keyLen : Nat) :
    Except GoError (List Byte) :=
  if time < 1 then .error (.runtimePanic "argon2: number of rounds too small")
  else if threads < 1 then .error (.runtimePanic "argon2: parallelism degree too low")
  else if keyLen = 0 then
    .error (.runtimePanic "invalid memory address or nil pointer dereference")
  else .ok (IDKey password salt time memory threads keyLen)

/-- The type of the random source: `rand.Read` on a buffer of `n` bytes, as
the bytes read or the error. -/
abbrev RandSource := Nat → Except GoError (List Byte)

/-- The function `generateRandomBytes`. -/
def generateRandomBytes (randRead : RandSource) (n : Nat) : Except GoError (List Byte) :=
  match randRead n with
  | .error err => .error err
  | .ok b => .ok b

/-- The function `Run`: hashes a text with argon2id under `hashParam` and a
fresh salt.  A panic of `argon2.IDKey` ends the call: it is the
`runtimePanic` in the second component. -/
def Run (IDKey : KDF) (randRead : RandSource) (text : List Char) :
    List Char × Option GoError :=
  match generateRandomBytes randRead hashParam.saltLength with
  | .error err => ([], some err)
  | .ok salt =>
    match argon2IDKey IDKey (stringBytes text) salt hashParam.iterations hashParam.memory
      hashParam.parallelism hashParam.keyLength with
    | .error crash => ([], some crash)
    | .ok hash =>
      (Sprintf argon2Version hashParam.memory hashParam.iterations hashParam.parallelism
        (EncodeToString salt) (EncodeToString hash), none)

/-- The function `decodeHash`. -/
def decodeHash (hashed : List Char) : Except GoError (params × List Byte × List Byte) :=
  let chuck := Split hashed '$'
  if chuck.length ≠ 6 then .error .ErrInvalidHash
  else
    match chuck[2]?, chuck[3]?, chuck[4]?, chuck[5]? with
    | some c2, some c3, some c4, some c5 =>
      match SscanfVersion c2 with
      | .error err => .error err
      | .ok version =>
        if version ≠ argon2Version then .error .ErrIncompatibleVersion
        else
          match SscanfParams c3 with
          | .error err => .error err
          | .ok (memory, iterations, parallelism) =>
            match DecodeString c4 with
            | .error err => .error err
            | .ok salt =>
              match DecodeString c5 with
              | .error err => .error err
              | .ok hash =>
                .ok ({ memory := memory, iterations := iterations, parallelism := parallelism,
                       saltLength := salt.length % 2 ^ 32,
                       keyLength := hash.length % 2 ^ 32 }, salt, hash)
    | _, _, _, _ => .error (.runtimePanic "index out of range")

/-- The function `Verify`.  A panic of `argon2.IDKey` ends the call: it is
the `runtimePanic` in the second component. -/
def Verify (IDKey : KDF) (plaintext hashed : List Char) : Bool × Option GoError :=
  match decodeHash hashed with
  | .error err => (false, some err)
  | .ok (p, salt, hash) =>
    match argon2IDKey IDKey (stringBytes plaintext) salt p.iterations p.memory p.parallelism
      p.keyLength with
    | .error crash => (false, some crash)
    | .ok hash2 => (ConstantTimeCompare hash hash2 == 1, none)

/-- The type of the SHA-1 digest: from the bytes written to the hash to the
bytes `hash.Sum(nil)` returns. -/
abbrev Digest := List Byte → List Byte

/-- The function `RunSha1`: every argument is written to the hash in turn
(`io.WriteString`), the digest of what was written is hex encoded. -/
def RunSha1 (sha1Sum : Digest) (str : List (List Char)) : List Char :=
  hexEncodeToString (sha1Sum (str.foldl (fun written s => written ++ stringBytes s) []))

/-! ## Auxiliary definitions for the statements -/

/-- The part of `decodeHash` after the field count check, as a function of
the four fields it reads (`chuck[2]` to `chuck[5]`). -/
def decodeFields (c2 c3 c4 c5 : List Char) : Except GoError (params × List Byte × List Byte) :=
  match SscanfVersion c2 with
  | .error err => .error err
  | .ok version =>
    if version ≠ argon2Version then .error .ErrIncompatibleVersion
    else
      match SscanfParams c3 with
      | .error err => .error err
      | .ok (memory, iterations, parallelism) =>
        match DecodeString c4 with
        | .error err => .error err
        | .ok salt =>
          match DecodeString c5 with
          | .error err => .error err
          | .ok hash =>
            .ok ({ memory := memory, iterations := iterations, parallelism := parallelism,
                   saltLength := salt.length % 2 ^ 32,
                   keyLength := hash.length % 2 ^ 32 }, salt, hash)

/-- The value of a string of decimal digits. -/
def digitsValue (a : Nat) (ds : List Char) : Nat :=
  ds.foldl (fun n c => n * 10 + (c.toNat - '0'.toNat)) a


/-- What `RawStdEncoding.DecodeString` accepts: characters of the standard
alphabet with CR and LF anywhere between them, the number of alphabet
characters not being 1 modulo 4. -/
def rawStdAccepted (s : List Char) : Bool :=
  s.all (fun c => encodeStd.contains c || c == '\n' || c == '\r') &&
    (s.filter (fun c => encodeStd.contains c)).length % 4 != 1

/-- Unpadded standard-alphabet base64 text: characters of the alphabet only,
their number not being 1 modulo 4. -/
def rawStdValid (s : List Char) : Bool :=
  s.all (fun c => encodeStd.contains c) && s.length % 4 != 1

/-- The errors of `fmt.Sscanf`: `io.EOF`, `io.ErrUnexpectedEOF`, the scanner's
own `errors.New` values and the `*strconv.NumError` values it passes on. -/
def GoError.isScanError : GoError → Bool
  | .EOF => true
  | .ErrUnexpectedEOF => true
  | .scanError _ => true
  | .rangeError _ _ => true
  | .syntaxError _ _ => true
  | _ => false

/-- The white space `Sscanf` skips before a number: every space character but
the newline. -/
def isBlank (c : Char) : Bool := isSpace c && c != '\n'

/-- A text that starts with `lit`, blanks and a decimal digit, read as
`<lit><blanks><digits><rest>` with the longest run of digits: the value of
the digits and the rest; `none` for every other text. -/
def readUint (lit f : List Char) : Option (Nat × List Char) :=
  if lit.isPrefixOf f then
    if ((f.drop lit.length).dropWhile isBlank).takeWhile decimalDigits.contains = [] then none
    else
      some (digitsValue 0 (((f.drop lit.length).dropWhile isBlank).takeWhile
          decimalDigits.contains),
        ((f.drop lit.length).dropWhile isBlank).dropWhile decimalDigits.contains)
  else none

/-- A parameter field read as `m=<uint>,t=<uint>,p=<uint><rest>` (blanks
allowed before each number): the three values, not yet checked for range. -/
def readParams (f : List Char) : Option (Nat × Nat × Nat) :=
  match readUint "m=".toList f with
  | none => none
  | some (m, r1) =>
    match readUint ",t=".toList r1 with
    | none => none
    | some (t, r2) =>
      match readUint ",p=".toList r2 with
      | none => none
      | some (p, _) => some (m, t, p)

/-- A parameter field of the form `m=<uint>,t=<uint>,p=<uint><rest>` whose
memory and iterations fit 32 bits and whose parallelism fits 8 bits. -/
def paramsAccepted (f : List Char) : Bool :=
  match readParams f with
  | none => false
  | some (m, t, p) => decide (m < 2 ^ 32) && decide (t < 2 ^ 32) && decide (p < 2 ^ 8)

/-- A version field that starts with `v=`, blanks, an optional sign and a
decimal digit. -/
def versionShape (f : List Char) : Bool :=
  if "v=".toList.isPrefixOf f then
    match (f.drop 2).dropWhile isBlank with
    | [] => false
    | c :: r =>
      if sign.contains c then
        match r with
        | [] => false
        | d :: _ => decimalDigits.contains d
      else decimalDigits.contains c
  else false

/-- A version field that is exactly `v=<integer>`: the marker, an optional
sign and decimal digits, nothing else. -/
def versionExact (f : List Char) : Bool :=
  if "v=".toList.isPrefixOf f then
    match f.drop 2 with
    | [] => false
    | c :: r =>
      if sign.contains c then !r.isEmpty && r.all decimalDigits.contains
      else (c :: r).all decimalDigits.contains
  else false

/-- A text that starts with `lit` and a decimal digit, read as
`<lit><digits><rest>` with the longest run of digits: the rest. -/
def exactUint (lit f : List Char) : Option (List Char) :=
  if lit.isPrefixOf f then
    if (f.drop lit.length).takeWhile decimalDigits.contains = [] then none
    else some ((f.drop lit.length).dropWhile decimalDigits.contains)
  else none

/-- A parameter field that is exactly `m=<uint>,t=<uint>,p=<uint>`: the three
markers, each followed by decimal digits, nothing else. -/
def paramsExact (f : List Char) : Bool :=
  match exactUint "m=".toList f with
  | none => false
  | some r1 =>
    match exactUint ",t=".toList r1 with
    | none => false
    | some r2 =>
      match exactUint ",p=".toList r2 with
      | none => false
      | some r3 => r3.isEmpty

/-- A sample key-derivation function: `keyLen` bytes, each the length of the
password (mod 256). -/
def lengthKDF : KDF := fun password _ _ _ _ keyLen =>
  List.replicate keyLen (Fin.ofNat password.length)

/-- A sample key-derivation function that ignores the password: `keyLen`
zero bytes. -/
def zeroKDF : KDF := fun _ _ _ _ _ keyLen => List.replicate keyLen 0

/-- The character `1` or `0` of a bit: plaintexts of `n` such characters are
`2^n` in number. -/
def bitChar (b : Bool) : Char := if b then '1' else '0'

/-- A sample random source: `n` times the byte `b`. -/
def fixedRand (b : Byte) : RandSource := fun n => .ok (List.replicate n b)

/-- A sample digest without collisions: the bytes written. -/
def idDigest : Digest := fun written => written

/-- The canonical form of unpadded base64 text: the left-over bits of the last
character of an incomplete quantum (the low 4 bits after one byte, the low 2
bits after two bytes) are cleared. -/
def rawStdCanonical : List Char → List Char
  | [] => []
  | [a] => [a]
  | [a, b] => [a, encodeChar (decodeMap b / 16 * 16)]
  | [a, b, c] => [a, b, encodeChar (decodeMap c / 4 * 4)]
  | a :: b :: c :: d :: rest => a :: b :: c :: d :: rawStdCanonical rest

/-! ## Lemmas: base64 -/

theorem decodeMap_encodeChar (i : Nat) (h : i < 64) : decodeMap (encodeChar i) = i := by
  revert i
  decide

theorem pack3 (a b c : Nat) (hb : b < 256) (hc : c < 256) :
    a <<< 16 ||| b <<< 8 ||| c = a * 65536 + b * 256 + c := by
  have h1 : a <<< 16 ||| b <<< 8 = 2 ^ 8 * (a * 256 + b) := by
    rw [Nat.shiftLeft_eq, Nat.shiftLeft_eq]
    have : a * 2 ^ 16 = 2 ^ 16 * a := by ring
    rw [this]
    rw [← Nat.mul_add_lt_is_or (by omega : b * 2 ^ 8 < 2 ^ 16) a]
    ring
  rw [h1, ← Nat.mul_add_lt_is_or (by omega : c < 2 ^ 8)]
  ring

theorem pack4 (a b c d : Nat) (hb : b < 64) (hc : c < 64) (hd : d < 64) :
    a <<< 18 ||| b <<< 12 ||| c <<< 6 ||| d = a * 262144 + b * 4096 + c * 64 + d := by
  have h1 : a <<< 18 ||| b <<< 12 = 2 ^ 12 * (a * 64 + b) := by
    rw [Nat.shiftLeft_eq, Nat.shiftLeft_eq]
    have : a * 2 ^ 18 = 2 ^ 18 * a := by ring
    rw [this]
    rw [← Nat.mul_add_lt_is_or (by omega : b * 2 ^ 12 < 2 ^ 18) a]
    ring
  have h2 : 2 ^ 12 * (a * 64 + b) ||| c <<< 6 = 2 ^ 6 * (a * 4096 + b * 64 + c) := by
    rw [Nat.shiftLeft_eq]
    rw [← Nat.mul_add_lt_is_or (by omega : c * 2 ^ 6 < 2 ^ 12)]
    ring
  rw [h1, h2, ← Nat.mul_add_lt_is_or (by omega : d < 2 ^ 6)]
  ring

theorem and63 (x : Nat) : x &&& 0x3F = x % 64 := Nat.and_pow_two_sub_one_eq_mod x 6

theorem byte_ofNat (b : Byte) (n : Nat) (h : n % 256 = b.val) : (Fin.ofNat n : Byte) = b := by
  apply Fin.ext
  simpa [Fin.ofNat] using h

theorem quantumBytes_one (b0 : Byte) :
    quantumBytes [(b0.val <<< 16) >>> 18 &&& 0x3F, (b0.val <<< 16) >>> 12 &&& 0x3F] = [b0] := by
  have h0 := b0.isLt
  simp only [quantumBytes, and63, List.getD_cons_zero, List.getD_cons_succ, List.getD_nil,
    List.length_cons, List.length_nil]
  rw [pack4 _ _ _ _ (Nat.mod_lt _ (by norm_num)) (by norm_num) (by norm_num)]
  simp only [List.take, Nat.zero_add, Nat.reduceAdd, Nat.reduceSub]
  rw [byte_ofNat b0]
  omega

theorem quantumBytes_two (b0 b1 : Byte) :
    quantumBytes [(b0.val <<< 16 ||| b1.val <<< 8) >>> 18 &&& 0x3F,
      (b0.val <<< 16 ||| b1.val <<< 8) >>> 12 &&& 0x3F,
      (b0.val <<< 16 ||| b1.val <<< 8) >>> 6 &&& 0x3F] = [b0, b1] := by
  have h0 := b0.isLt
  have h1 := b1.isLt
  have hv : b0.val <<< 16 ||| b1.val <<< 8 = b0.val * 65536 + b1.val * 256 := by
    have := pack3 b0.val b1.val 0 h1 (by norm_num)
    simpa using this
  simp only [quantumBytes, and63, hv, List.getD_cons_zero, List.getD_cons_succ, List.getD_nil,
    List.length_cons, List.length_nil]
  rw [pack4 _ _ _ _ (Nat.mod_lt _ (by norm_num)) (Nat.mod_lt _ (by norm_num)) (by norm_num)]
  simp only [List.take, Nat.zero_add, Nat.reduceAdd, Nat.reduceSub]
  rw [byte_ofNat b0, byte_ofNat b1]
  · omega
  · omega

theorem quantumBytes_three (b0 b1 b2 : Byte) :
    quantumBytes [(b0.val <<< 16 ||| b1.val <<< 8 ||| b2.val) >>> 18 &&& 0x3F,
      (b0.val <<< 16 ||| b1.val <<< 8 ||| b2.val) >>> 12 &&& 0x3F,
      (b0.val <<< 16 ||| b1.val <<< 8 ||| b2.val) >>> 6 &&& 0x3F,
      (b0.val <<< 16 ||| b1.val <<< 8 ||| b2.val) &&& 0x3F] = [b0, b1, b2] := by
  have h0 := b0.isLt
  have h1 := b1.isLt
  have h2 := b2.isLt
  simp only [quantumBytes, and63, pack3 _ _ _ h1 h2, List.getD_cons_zero, List.getD_cons_succ,
    List.getD_nil, List.length_cons, List.length_nil]
  rw [pack4 _ _ _ _ (Nat.mod_lt _ (by norm_num)) (Nat.mod_lt _ (by norm_num))
    (Nat.mod_lt _ (by norm_num))]
  simp only [List.take, Nat.zero_add, Nat.reduceAdd, Nat.reduceSub]
  rw [byte_ofNat b0, byte_ofNat b1, byte_ofNat b2]
  · omega
  · omega
  · omega

theorem decodeMap_enc (x : Nat) : decodeMap (encodeChar (x &&& 0x3F)) = x &&& 0x3F :=
  decodeMap_encodeChar _ (by rw [and63]; exact Nat.mod_lt _ (by norm_num))

theorem enc_ne_ff (x : Nat) : x &&& 0x3F ≠ 0xff := by
  rw [and63]; omega

theorem decodeLoop_EncodeToString (bs : List Byte) :
    ∀ si, decodeLoop (EncodeToString bs) si [] = .ok bs := by
  induction bs using EncodeToString.induct with
  | case1 => intro si; simp [EncodeToString, decodeLoop]
  | case2 b0 =>
    intro si
    simp only [EncodeToString, decodeLoop, decodeMap_enc, enc_ne_ff, ne_eq, not_false_eq_true,
      if_true, List.length_nil, List.nil_append, List.length_cons, List.cons_append]
    simp [quantumBytes_one]
  | case3 b0 b1 =>
    intro si
    simp only [EncodeToString, decodeLoop, decodeMap_enc, enc_ne_ff, ne_eq, not_false_eq_true,
      if_true, List.length_nil, List.nil_append, List.length_cons, List.cons_append]
    simp [quantumBytes_two]
  | case4 b0 b1 b2 rest ih =>
    intro si
    simp only [EncodeToString, decodeLoop, decodeMap_enc, enc_ne_ff, ne_eq, not_false_eq_true,
      if_true, List.length_nil, List.nil_append, List.length_cons, List.cons_append]
    simp [ih, quantumBytes_three]

theorem DecodeString_EncodeToString (bs : List Byte) :
    DecodeString (EncodeToString bs) = .ok bs := decodeLoop_EncodeToString bs 0

/-! ## Lemmas: what the base64 decoder rejects -/

theorem decodeMap_ne_ff (c : Char) : decodeMap c ≠ 0xff ↔ encodeStd.contains c = true := by
  unfold decodeMap
  split
  · rename_i h
    have hmem : c ∈ encodeStd := by simpa using h
    have hlt := List.indexOf_lt_length.mpr hmem
    have hlen : encodeStd.length = 64 := by decide
    simp only [h, iff_true]
    omega
  · rename_i h
    have h2 : c ∉ encodeStd := by simpa using h
    simp [h2]

theorem decodeLoop_ok_or_corrupt (s : List Char) : ∀ (si : Nat) (dbuf : List Nat),
    (∃ out, decodeLoop s si dbuf = .ok out) ∨
      ∃ off, decodeLoop s si dbuf = .error (.CorruptInputError off) := by
  induction s with
  | nil =>
    intro si dbuf
    unfold decodeLoop
    split
    · exact Or.inl ⟨_, rfl⟩
    · split
      · exact Or.inr ⟨_, rfl⟩
      · exact Or.inl ⟨_, rfl⟩
  | cons c cs ih =>
    intro si dbuf
    unfold decodeLoop
    split
    · split
      · rcases ih (si + 1) [] with ⟨out, h⟩ | ⟨off, h⟩
        · rw [h]; exact Or.inl ⟨_, rfl⟩
        · rw [h]; exact Or.inr ⟨_, rfl⟩
      · exact ih _ _
    · split
      · exact ih _ _
      · exact Or.inr ⟨_, rfl⟩

theorem decodeLoop_rejects (s : List Char) : ∀ (si : Nat) (dbuf : List Nat), dbuf.length < 4 →
    (s.all (fun c => encodeStd.contains c || c == '\n' || c == '\r') &&
      (dbuf.length + (s.filter (fun c => encodeStd.contains c)).length) % 4 != 1) = false →
    ∃ off, decodeLoop s si dbuf = .error (.CorruptInputError off) := by
  induction s with
  | nil =>
    intro si dbuf hlt hbad
    simp only [List.all_nil, List.filter_nil, List.length_nil, Nat.add_zero, Bool.true_and,
      bne_eq_false_iff_eq] at hbad
    have h1 : dbuf.length = 1 := by omega
    unfold decodeLoop
    rw [if_neg (by omega), if_pos h1]
    exact ⟨_, rfl⟩
  | cons c cs ih =>
    intro si dbuf hlt hbad
    unfold decodeLoop
    by_cases hc : encodeStd.contains c = true
    · rw [if_pos ((decodeMap_ne_ff c).mpr hc)]
      simp only [List.all_cons, hc, Bool.true_or, Bool.true_and, List.filter_cons, if_true,
        List.length_cons] at hbad
      by_cases h4 : dbuf.length + 1 = 4
      · rw [if_pos h4]
        have hbad2 : (cs.all (fun c => encodeStd.contains c || c == '\n' || c == '\r') &&
            (([] : List Nat).length + (cs.filter (fun c => encodeStd.contains c)).length) % 4
              != 1) = false := by
          have e : (dbuf.length + ((cs.filter (fun c => encodeStd.contains c)).length + 1)) % 4 =
              (([] : List Nat).length + (cs.filter (fun c => encodeStd.contains c)).length) % 4 := by
            simp only [List.length_nil]; omega
          rw [← e]; exact hbad
        obtain ⟨off, h⟩ := ih (si + 1) [] (by simp) hbad2
        rw [h]; exact ⟨_, rfl⟩
      · rw [if_neg h4]
        apply ih (si + 1) (dbuf ++ [decodeMap c]) (by simp; omega)
        have e : ((dbuf ++ [decodeMap c]).length +
            (cs.filter (fun c => encodeStd.contains c)).length) =
            (dbuf.length + ((cs.filter (fun c => encodeStd.contains c)).length + 1)) := by
          simp only [List.length_append, List.length_cons, List.length_nil]; omega
        rw [e]; exact hbad
    · have hc2 : encodeStd.contains c = false := by simpa using hc
      rw [if_neg (by rw [decodeMap_ne_ff]; exact hc)]
      by_cases hnl : c = '\n' ∨ c = '\r'
      · rw [if_pos hnl]
        apply ih (si + 1) dbuf hlt
        have hb : (c == '\n' || c == '\r') = true := by
          rcases hnl with h | h <;> simp [h]
        simp only [List.all_cons, hc2, Bool.false_or, hb, Bool.true_and, List.filter_cons,
          Bool.false_eq_true, if_false] at hbad
        exact hbad
      · rw [if_neg hnl]
        exact ⟨_, rfl⟩

theorem DecodeString_rejects (s : List Char) (h : rawStdAccepted s = false) :
    ∃ off, DecodeString s = .error (.CorruptInputError off) := by
  apply decodeLoop_rejects s 0 [] (by simp)
  simpa [rawStdAccepted] using h

theorem rawStdAccepted_of_valid (s : List Char) (h : rawStdValid s = true) :
    rawStdAccepted s = true := by
  simp only [rawStdValid, Bool.and_eq_true, List.all_eq_true, bne_iff_ne] at h
  have hf : s.filter (fun c => encodeStd.contains c) = s :=
    List.filter_eq_self.mpr h.1
  simp only [rawStdAccepted, hf, Bool.and_eq_true, List.all_eq_true, bne_iff_ne,
    Bool.or_eq_true]
  exact ⟨fun c hc => Or.inl (Or.inl (h.1 c hc)), h.2⟩

/-! ## Lemmas: decimal numbers and the scanner -/


theorem decodeHash_fields (hashed c0 c1 c2 c3 c4 c5 : List Char)
    (h : Split hashed '$' = [c0, c1, c2, c3, c4, c5]) :
    decodeHash hashed = decodeFields c2 c3 c4 c5 := by
  simp only [decodeHash, h]
  rfl

theorem digit_facts (c : Char) (h : c ∈ decimalDigits) :
    ('0' ≤ c ∧ c ≤ '9') ∧ c.toNat - '0'.toNat < 10 ∧ isSpace c = false ∧ c ≠ '\n' ∧ c ≠ '\r' ∧
      c ≠ '$' ∧ sign.contains c = false ∧ decimalDigits.contains c = true := by
  have h1 : c = '0' ∨ c = '1' ∨ c = '2' ∨ c = '3' ∨ c = '4' ∨ c = '5' ∨ c = '6' ∨ c = '7' ∨
      c = '8' ∨ c = '9' := by simpa [decimalDigits] using h
  rcases h1 with h | h | h | h | h | h | h | h | h | h <;> subst h <;> decide

theorem digitChar_facts (d : Nat) (h : d < 10) :
    Char.ofNat (48 + d) ∈ decimalDigits ∧ (Char.ofNat (48 + d)).toNat - '0'.toNat = d := by
  have h1 : d = 0 ∨ d = 1 ∨ d = 2 ∨ d = 3 ∨ d = 4 ∨ d = 5 ∨ d = 6 ∨ d = 7 ∨ d = 8 ∨ d = 9 := by
    omega
  rcases h1 with h | h | h | h | h | h | h | h | h | h <;> subst h <;> decide

theorem fmtDigits_append (fuel : Nat) : ∀ (u : Nat) (acc : List Char),
    fmtDigits fuel u acc = fmtDigits fuel u [] ++ acc := by
  induction fuel with
  | zero => intro u acc; simp [fmtDigits]
  | succ fuel ih =>
    intro u acc
    unfold fmtDigits
    split
    · rw [ih _ (_ :: acc), ih _ [_]]; simp
    · simp

theorem fmtDigits_spec (fuel : Nat) : ∀ (u : Nat), u ≤ fuel →
    fmtDigits fuel u [] ≠ [] ∧ (∀ c ∈ fmtDigits fuel u [], c ∈ decimalDigits) ∧
      digitsValue 0 (fmtDigits fuel u []) = u := by
  induction fuel with
  | zero =>
    intro u hu
    have : u = 0 := by omega
    subst this
    simp [fmtDigits, digitsValue]
    decide
  | succ fuel ih =>
    intro u hu
    unfold fmtDigits
    split
    · rename_i h10
      obtain ⟨-, hd, hv⟩ := ih (u / 10) (by omega)
      have hlast := digitChar_facts (u - u / 10 * 10) (by omega)
      rw [fmtDigits_append]
      refine ⟨by simp, ?_, ?_⟩
      · intro c hc
        rcases List.mem_append.mp hc with hc | hc
        · exact hd c hc
        · rw [List.mem_singleton.mp hc]; exact hlast.1
      · unfold digitsValue at hv ⊢
        rw [List.foldl_append, hv]
        simp only [List.foldl_cons, List.foldl_nil]
        rw [hlast.2]
        omega
    · rename_i h10
      have hlast := digitChar_facts u (by omega)
      refine ⟨by simp, ?_, ?_⟩
      · intro c hc
        rw [List.mem_singleton.mp hc]; exact hlast.1
      · simp only [digitsValue, List.foldl_cons, List.foldl_nil]
        rw [hlast.2]; omega

theorem fmtUint_spec (u : Nat) :
    fmtUint u ≠ [] ∧ (∀ c ∈ fmtUint u, c ∈ decimalDigits) ∧ digitsValue 0 (fmtUint u) = u :=
  fmtDigits_spec u u (Nat.le_refl u)

theorem digitsValue_ge (ds : List Char) : ∀ a, a ≤ digitsValue a ds := by
  induction ds with
  | nil => intro a; simp [digitsValue]
  | cons c cs ih =>
    intro a
    have := ih (a * 10 + (c.toNat - '0'.toNat))
    simp only [digitsValue, List.foldl_cons] at this ⊢
    omega

theorem ParseUintLoop_digits (s0 : List Char) (ds : List Char) :
    ∀ a, (∀ c ∈ ds, c ∈ decimalDigits) → digitsValue a ds < 2 ^ 64 →
      ParseUintLoop s0 ds a = .ok (digitsValue a ds) := by
  induction ds with
  | nil => intro a _ _; simp [ParseUintLoop, digitsValue]
  | cons c cs ih =>
    intro a hd hv
    have hc := digit_facts c (hd c (List.mem_cons_self _ _))
    have hge := digitsValue_ge cs (a * 10 + (c.toNat - '0'.toNat))
    have hv2 : digitsValue (a * 10 + (c.toNat - '0'.toNat)) cs < 2 ^ 64 := by
      simpa [digitsValue] using hv
    have hrec := ih (a * 10 + (c.toNat - '0'.toNat))
      (fun x hx => hd x (List.mem_cons_of_mem _ hx)) hv2
    unfold ParseUintLoop
    rw [if_pos hc.1, if_neg (by omega), if_neg (by omega), hrec]
    simp [digitsValue]

theorem ParseUintLoop_overflow (s0 : List Char) (ds : List Char) :
    ∀ a, (∀ c ∈ ds, c ∈ decimalDigits) → 2 ^ 64 ≤ digitsValue a ds → a < 2 ^ 64 →
      ParseUintLoop s0 ds a = .error (.rangeError "ParseUint" s0) := by
  induction ds with
  | nil => intro a _ hv ha; simp [digitsValue] at hv; omega
  | cons c cs ih =>
    intro a hd hv ha
    have hc := digit_facts c (hd c (List.mem_cons_self _ _))
    have hv2 : 2 ^ 64 ≤ digitsValue (a * 10 + (c.toNat - '0'.toNat)) cs := by
      simpa [digitsValue] using hv
    unfold ParseUintLoop
    rw [if_pos hc.1]
    by_cases h1 : a ≥ (2 ^ 64 - 1) / 10 + 1
    · rw [if_pos h1]
    · rw [if_neg h1]
      by_cases h2 : a * 10 + (c.toNat - '0'.toNat) > 2 ^ 64 - 1
      · rw [if_pos h2]
      · rw [if_neg h2]
        exact ih _ (fun x hx => hd x (List.mem_cons_of_mem _ hx)) hv2 (by omega)

theorem ParseUint_digits (ds : List Char) (hne : ds ≠ []) (hd : ∀ c ∈ ds, c ∈ decimalDigits) :
    ParseUint ds = if digitsValue 0 ds < 2 ^ 64 then .ok (digitsValue 0 ds)
      else .error (.rangeError "ParseUint" ds) := by
  cases ds with
  | nil => exact absurd rfl hne
  | cons c cs =>
    simp only [ParseUint]
    split
    · rename_i h; exact ParseUintLoop_digits _ _ 0 hd h
    · rename_i h; exact ParseUintLoop_overflow _ _ 0 hd (by omega) (by norm_num)

theorem acceptAll_digits (ds : List Char) (rest : List Char)
    (hd : ∀ c ∈ ds, c ∈ decimalDigits) (hr : ∀ c, rest.head? = some c → c ∉ decimalDigits) :
    acceptAll decimalDigits (ds ++ rest) = (ds, rest) := by
  induction ds with
  | nil =>
    cases rest with
    | nil => simp [acceptAll]
    | cons r rs =>
      have := hr r rfl
      simp [acceptAll, this]
  | cons c cs ih =>
    have hc := digit_facts c (hd c (List.mem_cons_self _ _))
    have := ih (fun x hx => hd x (List.mem_cons_of_mem _ hx))
    simp [acceptAll, hd c (List.mem_cons_self _ _), this]

theorem advance_append (lit : List Char) (x : List Char) : advance lit (lit ++ x) = .ok x := by
  induction lit with
  | nil => cases x <;> simp [advance]
  | cons c cs ih => simp [advance, ih]

theorem SkipSpace_digit (c : Char) (rest : List Char) (h : c ∈ decimalDigits) :
    SkipSpace (c :: rest) = .ok (c :: rest) := by
  have hc := digit_facts c h
  simp [SkipSpace, hc.2.2.1, hc.2.2.2.1, hc.2.2.2.2.1]

theorem scanNumber_digits (buf ds rest : List Char) (hne : ds ≠ [])
    (hd : ∀ c ∈ ds, c ∈ decimalDigits) (hr : ∀ c, rest.head? = some c → c ∉ decimalDigits) :
    scanNumber buf (ds ++ rest) = .ok (buf ++ ds, rest) := by
  cases ds with
  | nil => exact absurd rfl hne
  | cons c cs =>
    have hc := hd c (List.mem_cons_self _ _)
    have := acceptAll_digits cs rest (fun x hx => hd x (List.mem_cons_of_mem _ hx)) hr
    simp [scanNumber, hc, this]

theorem fits_iff (bitSize i : Nat) (hb : bitSize = 32 ∨ bitSize = 8) (hi : i < 2 ^ 64) :
    ((i <<< (64 - bitSize)) % 2 ^ 64) >>> (64 - bitSize) ≠ i ↔ 2 ^ bitSize ≤ i := by
  rcases hb with h | h <;> subst h <;> simp only [Nat.reduceSub] <;> omega

theorem scanUint_digits (bitSize : Nat) (ds rest : List Char) (hb : bitSize = 32 ∨ bitSize = 8)
    (hne : ds ≠ []) (hd : ∀ c ∈ ds, c ∈ decimalDigits)
    (hr : ∀ c, rest.head? = some c → c ∉ decimalDigits) (hv : digitsValue 0 ds < 2 ^ bitSize) :
    scanUint bitSize (ds ++ rest) = .ok (digitsValue 0 ds, rest) := by
  have h64 : digitsValue 0 ds < 2 ^ 64 := by
    rcases hb with h | h <;> subst h <;> omega
  obtain ⟨c, cs, rfl⟩ := List.exists_cons_of_ne_nil hne
  have hsk := SkipSpace_digit c (cs ++ rest) (hd c (List.mem_cons_self _ _))
  have hsn := scanNumber_digits [] (c :: cs) rest hne hd hr
  have hpu := ParseUint_digits (c :: cs) hne hd
  rw [if_pos h64] at hpu
  have hfit := (fits_iff bitSize _ hb h64).not.mpr (by omega)
  simp only [List.cons_append, List.nil_append] at hsk hsn
  simp only [scanUint, List.cons_append, hsk, hsn, hpu]
  rw [if_neg hfit]

theorem scanfUintStep_digits (lit : List Char) (bitSize : Nat) (ds rest : List Char)
    (hb : bitSize = 32 ∨ bitSize = 8) (hne : ds ≠ []) (hd : ∀ c ∈ ds, c ∈ decimalDigits)
    (hr : ∀ c, rest.head? = some c → c ∉ decimalDigits) (hv : digitsValue 0 ds < 2 ^ bitSize) :
    scanfUintStep lit bitSize (lit ++ (ds ++ rest)) = .ok (digitsValue 0 ds, rest) := by
  obtain ⟨c, cs, rfl⟩ := List.exists_cons_of_ne_nil hne
  have hsk := SkipSpace_digit c (cs ++ rest) (hd c (List.mem_cons_self _ _))
  simp only [scanfUintStep, advance_append]
  simp only [List.cons_append] at hsk ⊢
  rw [hsk]
  exact scanUint_digits bitSize (c :: cs) rest hb (by simp) hd hr hv

theorem doScanfParams_fmt (m t p : Nat) (hm : m < 2 ^ 32) (ht : t < 2 ^ 32) (hp : p < 2 ^ 8) :
    doScanfParams ("m=".toList ++ fmtUint m ++ ",t=".toList ++ fmtUint t ++ ",p=".toList ++
      fmtUint p) = .ok (m, t, p) := by
  obtain ⟨hm1, hm2, hm3⟩ := fmtUint_spec m
  obtain ⟨ht1, ht2, ht3⟩ := fmtUint_spec t
  obtain ⟨hp1, hp2, hp3⟩ := fmtUint_spec p
  have e1 := scanfUintStep_digits "m=".toList 32 (fmtUint m)
    (",t=".toList ++ (fmtUint t ++ (",p=".toList ++ (fmtUint p ++ [])))) (Or.inl rfl) hm1 hm2
    (by intro c hc; simp at hc; subst hc; decide) (by rw [hm3]; exact hm)
  have e2 := scanfUintStep_digits ",t=".toList 32 (fmtUint t)
    (",p=".toList ++ (fmtUint p ++ [])) (Or.inl rfl) ht1 ht2
    (by intro c hc; simp at hc; subst hc; decide) (by rw [ht3]; exact ht)
  have e3 := scanfUintStep_digits ",p=".toList 8 (fmtUint p) [] (Or.inr rfl) hp1 hp2
    (by intro c hc; simp at hc) (by rw [hp3]; exact hp)
  rw [hm3] at e1
  rw [ht3] at e2
  rw [hp3] at e3
  simp only [List.append_assoc, List.append_nil] at e1 e2 e3 ⊢
  simp only [doScanfParams, e1, e2, e3]


theorem hugeWid_eq : hugeWid = 1073741824 := by decide

theorem fmtDigits_length (fuel : Nat) : ∀ (u k : Nat), u ≤ fuel → u < 10 ^ (k + 1) →
    (fmtDigits fuel u []).length ≤ k + 1 := by
  induction fuel with
  | zero =>
    intro u k _ _
    simp [fmtDigits]
  | succ fuel ih =>
    intro u k hu hk
    unfold fmtDigits
    split
    · rename_i h10
      rw [fmtDigits_append]
      cases k with
      | zero => simp at hk; omega
      | succ k =>
        have hdiv : u / 10 < 10 ^ (k + 1) := by
          apply Nat.div_lt_of_lt_mul
          rw [pow_succ] at hk
          omega
        have := ih (u / 10) k (by omega) hdiv
        simp only [List.length_append, List.length_cons, List.length_nil]
        omega
    · simp

theorem fmtUint_length_le (u k : Nat) (h : u < 10 ^ (k + 1)) : (fmtUint u).length ≤ k + 1 :=
  fmtDigits_length u u k (Nat.le_refl u) h

theorem SscanfParams_fmt (m t p : Nat) (hm : m < 2 ^ 32) (ht : t < 2 ^ 32) (hp : p < 2 ^ 8) :
    SscanfParams ("m=".toList ++ fmtUint m ++ ",t=".toList ++ fmtUint t ++ ",p=".toList ++
      fmtUint p) = .ok (m, t, p) := by
  have lm := fmtUint_length_le m 9 (by omega)
  have lt := fmtUint_length_le t 9 (by omega)
  have lp := fmtUint_length_le p 2 (by omega)
  have hlen : ("m=".toList ++ fmtUint m ++ ",t=".toList ++ fmtUint t ++ ",p=".toList ++
      fmtUint p).length ≤ hugeWid := by
    rw [hugeWid_eq]
    have e1 : "m=".toList.length = 2 := rfl
    have e2 : ",t=".toList.length = 3 := rfl
    have e3 : ",p=".toList.length = 3 := rfl
    simp only [List.length_append, e1, e2, e3]
    omega
  rw [SscanfParams, List.take_of_length_le hlen]
  exact doScanfParams_fmt m t p hm ht hp

theorem digitsValue_zeros (n : Nat) : digitsValue 0 (List.replicate n '0') = 0 := by
  induction n with
  | zero => rfl
  | succ n ih =>
    rw [List.replicate_succ]
    exact ih

theorem digitsValue_zeros_append (n : Nat) (ds : List Char) :
    digitsValue 0 (List.replicate n '0' ++ ds) = digitsValue 0 ds := by
  have h := digitsValue_zeros n
  unfold digitsValue at h ⊢
  rw [List.foldl_append, h]

theorem SscanfParams_limit (n : Nat) (hn : n + 11 = hugeWid) (cut : List Char) :
    SscanfParams ("m=1,t=1,p=".toList ++ (List.replicate n '0' ++ ('1' :: cut))) =
      .ok (1, 1, 1) := by
  have hlen : ("m=1,t=1,p=".toList ++ (List.replicate n '0' ++ ['1'])).length = hugeWid := by
    have e1 : "m=1,t=1,p=".toList.length = 10 := rfl
    rw [← hn, List.length_append, List.length_append, List.length_replicate, e1,
      List.length_singleton]
    omega
  have hsplit : "m=1,t=1,p=".toList ++ (List.replicate n '0' ++ ('1' :: cut)) =
      ("m=1,t=1,p=".toList ++ (List.replicate n '0' ++ ['1'])) ++ cut := by
    simp only [List.append_assoc, List.singleton_append]
  have hd : ∀ c ∈ List.replicate n '0' ++ ['1'], c ∈ decimalDigits := by
    intro c hc
    rw [List.mem_append] at hc
    rcases hc with hc | hc
    · rw [(List.mem_replicate.mp hc).2]
      decide
    · rw [List.mem_singleton.mp hc]
      decide
  have hv : digitsValue 0 (List.replicate n '0' ++ ['1']) = 1 := by
    rw [digitsValue_zeros_append]
    rfl
  have e1 := scanfUintStep_digits "m=".toList 32 ['1']
    (",t=".toList ++ (['1'] ++ (",p=".toList ++ ((List.replicate n '0' ++ ['1']) ++ []))))
    (Or.inl rfl) (by simp) (by decide) (by intro c hc; simp at hc; subst hc; decide)
    (by decide)
  have e2 := scanfUintStep_digits ",t=".toList 32 ['1']
    (",p=".toList ++ ((List.replicate n '0' ++ ['1']) ++ []))
    (Or.inl rfl) (by simp) (by decide) (by intro c hc; simp at hc; subst hc; decide)
    (by decide)
  have e3 := scanfUintStep_digits ",p=".toList 8 (List.replicate n '0' ++ ['1']) []
    (Or.inr rfl) (by simp) hd (by intro c hc; simp at hc) (by rw [hv]; decide)
  rw [hv] at e3
  have v1 : digitsValue 0 ['1'] = 1 := rfl
  rw [v1] at e1 e2
  have hform : "m=1,t=1,p=".toList ++ (List.replicate n '0' ++ ['1']) =
      "m=".toList ++ (['1'] ++ (",t=".toList ++ (['1'] ++ (",p=".toList ++
        ((List.replicate n '0' ++ ['1']) ++ []))))) := by
    rw [List.append_nil]
    rfl
  rw [SscanfParams, hsplit, List.take_left' hlen, hform]
  simp only [doScanfParams, e1, e2, e3]

theorem Split_no_sep (a : List Char) (sep : Char) (h : ∀ c ∈ a, c ≠ sep) : Split a sep = [a] := by
  induction a with
  | nil => simp [Split]
  | cons c cs ih =>
    have hc := h c (List.mem_cons_self _ _)
    have := ih (fun x hx => h x (List.mem_cons_of_mem _ hx))
    simp [Split, hc, this]

theorem Split_append_sep (a b : List Char) (sep : Char) (h : ∀ c ∈ a, c ≠ sep) :
    Split (a ++ sep :: b) sep = a :: Split b sep := by
  induction a with
  | nil => simp [Split]
  | cons c cs ih =>
    have hc := h c (List.mem_cons_self _ _)
    have := ih (fun x hx => h x (List.mem_cons_of_mem _ hx))
    simp [Split, hc, this]

theorem encodeChar_ne_dollar (i : Nat) : encodeChar i ≠ '$' := by
  by_cases h : i < 64
  · revert i; decide
  · have : encodeStd.length ≤ i := by
      have : encodeStd.length = 64 := by decide
      omega
    simp [encodeChar, List.getD, List.getElem?_eq_none this]

theorem EncodeToString_no_dollar (bs : List Byte) : ∀ c ∈ EncodeToString bs, c ≠ '$' := by
  induction bs using EncodeToString.induct with
  | case1 => simp [EncodeToString]
  | case2 b0 => simp [EncodeToString, encodeChar_ne_dollar]
  | case3 b0 b1 => simp [EncodeToString, encodeChar_ne_dollar]
  | case4 b0 b1 b2 rest ih =>
    intro c hc
    simp only [EncodeToString, List.mem_cons] at hc
    rcases hc with h | h | h | h | h
    · rw [h]; exact encodeChar_ne_dollar _
    · rw [h]; exact encodeChar_ne_dollar _
    · rw [h]; exact encodeChar_ne_dollar _
    · rw [h]; exact encodeChar_ne_dollar _
    · exact ih c h

theorem fmtUint_no_dollar (u : Nat) : ∀ c ∈ fmtUint u, c ≠ '$' :=
  fun c hc => (digit_facts c ((fmtUint_spec u).2.1 c hc)).2.2.2.2.2.1

theorem Split_Sprintf (m t p : Nat) (salt hash : List Char)
    (hs : ∀ c ∈ salt, c ≠ '$') (hh : ∀ c ∈ hash, c ≠ '$') :
    Split (Sprintf argon2Version m t p salt hash) '$' =
      [[], "argon2id".toList, "v=19".toList,
        "m=".toList ++ fmtUint m ++ ",t=".toList ++ fmtUint t ++ ",p=".toList ++ fmtUint p,
        salt, hash] := by
  have hv : fmtInt argon2Version = "19".toList := by decide
  have e : Sprintf argon2Version m t p salt hash =
      [] ++ '$' :: ("argon2id".toList ++ '$' :: ("v=19".toList ++ '$' ::
        (("m=".toList ++ fmtUint m ++ ",t=".toList ++ fmtUint t ++ ",p=".toList ++ fmtUint p)
          ++ '$' :: (salt ++ '$' :: hash)))) := by
    simp [Sprintf, hv]
  have hpar : ∀ c ∈ "m=".toList ++ fmtUint m ++ ",t=".toList ++ fmtUint t ++ ",p=".toList ++
      fmtUint p, c ≠ '$' := by
    intro c hc
    simp only [List.mem_append] at hc
    rcases hc with ((((hc | hc) | hc) | hc) | hc) | hc
    · revert c; decide
    · exact fmtUint_no_dollar m c hc
    · revert c; decide
    · exact fmtUint_no_dollar t c hc
    · revert c; decide
    · exact fmtUint_no_dollar p c hc
  rw [e, Split_append_sep _ _ _ (by simp), Split_append_sep _ _ _ (by decide),
    Split_append_sep _ _ _ (by decide), Split_append_sep _ _ _ hpar,
    Split_append_sep _ _ _ hs, Split_no_sep _ _ hh]

theorem decodeHash_Sprintf (m t p : Nat) (salt key : List Byte)
    (hm : m < 2 ^ 32) (ht : t < 2 ^ 32) (hp : p < 2 ^ 8) :
    decodeHash (Sprintf argon2Version m t p (EncodeToString salt) (EncodeToString key)) =
      .ok ({ memory := m, iterations := t, parallelism := p,
             saltLength := salt.length % 2 ^ 32, keyLength := key.length % 2 ^ 32 },
           salt, key) := by
  have hsplit := Split_Sprintf m t p _ _ (EncodeToString_no_dollar salt)
    (EncodeToString_no_dollar key)
  have hver : SscanfVersion "v=19".toList = .ok argon2Version := by rfl
  have hpar := SscanfParams_fmt m t p hm ht hp
  rw [decodeHash_fields _ _ _ _ _ _ _ hsplit]
  simp only [decodeFields, hver, hpar, DecodeString_EncodeToString]
  simp

/-! ## Lemmas: what the scanner accepts and rejects -/

theorem advance_spec (lit : List Char) : ∀ f : List Char,
    (lit.isPrefixOf f = true ∧ advance lit f = .ok (f.drop lit.length)) ∨
    (lit.isPrefixOf f = false ∧ ∃ e, advance lit f = .error e ∧ e.isScanError = true) := by
  induction lit with
  | nil => intro f; left; cases f <;> simp [advance]
  | cons a l ih =>
    intro f
    cases f with
    | nil => right; exact ⟨rfl, .ErrUnexpectedEOF, rfl, rfl⟩
    | cons b t =>
      by_cases hab : a = b
      · subst hab
        rcases ih t with ⟨h1, h2⟩ | ⟨h1, e, h2, h3⟩
        · left; simp [advance, h1, h2]
        · right; simp [advance, h1, h2, h3]
      · right
        refine ⟨by simp [List.isPrefixOf, hab],
          .scanError "input does not match format", ?_, rfl⟩
        simp [advance, hab]

theorem isBlank_newline : isBlank '\n' = false := by decide

theorem SkipSpace_spec (s : List Char) :
    ((s.dropWhile isBlank).head? = some '\n' →
      SkipSpace s = .error (.scanError "unexpected newline")) ∧
    ((s.dropWhile isBlank).head? ≠ some '\n' → SkipSpace s = .ok (s.dropWhile isBlank)) := by
  induction s with
  | nil => simp [SkipSpace]
  | cons c cs ih =>
    by_cases hnl : c = '\n'
    · subst hnl
      have : ¬ ('\n' = '\r' ∧ cs.head? = some '\n') := by
        intro h; exact absurd h.1 (by decide)
      simp [SkipSpace, List.dropWhile, isBlank_newline]
    · by_cases hsp : isSpace c = true
      · have hb : isBlank c = true := by simp [isBlank, hsp, hnl]
        have hsk : SkipSpace (c :: cs) = SkipSpace cs := by
          simp only [SkipSpace]
          split
          · rfl
          · simp [hnl, hsp]
        rw [hsk]
        simpa [List.dropWhile, hb] using ih
      · have hsp2 : isSpace c = false := by simpa using hsp
        have hb : isBlank c = false := by simp [isBlank, hsp2]
        have hr : ¬ (c = '\r' ∧ cs.head? = some '\n') := by
          intro h
          rw [h.1] at hsp2
          exact absurd hsp2 (by decide)
        simp [SkipSpace, List.dropWhile, hb, hr, hnl, hsp2]

theorem head_dropWhile_isBlank (s : List Char) (c : Char)
    (h : (s.dropWhile isBlank).head? = some c) : isBlank c = false := by
  induction s with
  | nil => simp at h
  | cons a t ih =>
    by_cases ha : isBlank a = true
    · simp only [List.dropWhile, ha] at h
      exact ih h
    · have ha2 : isBlank a = false := by simpa using ha
      simp only [List.dropWhile, ha2, List.head?_cons, Option.some.injEq] at h
      rw [← h]; exact ha2

theorem SkipSpace_not_space (c : Char) (t : List Char) (h : isSpace c = false) :
    SkipSpace (c :: t) = .ok (c :: t) := by
  have h1 : c ≠ '\n' := by
    intro e; rw [e] at h; exact absurd h (by decide)
  have h2 : ¬ (c = '\r' ∧ t.head? = some '\n') := by
    intro e; rw [e.1] at h; exact absurd h (by decide)
  simp [SkipSpace, h, h1, h2]

theorem acceptAll_eq (ok : List Char) (s : List Char) :
    acceptAll ok s = (s.takeWhile ok.contains, s.dropWhile ok.contains) := by
  induction s with
  | nil => simp [acceptAll]
  | cons c cs ih =>
    by_cases hc : ok.contains c = true
    · simp only [acceptAll, List.takeWhile_cons, List.dropWhile_cons, hc, ih, if_true]
    · have hc2 : ok.contains c = false := by simpa using hc
      simp only [acceptAll, List.takeWhile_cons, List.dropWhile_cons, hc2, Bool.false_eq_true,
        if_false]

theorem takeWhile_digits_mem (s : List Char) :
    ∀ c ∈ s.takeWhile decimalDigits.contains, c ∈ decimalDigits := by
  intro c hc
  have := List.mem_takeWhile_imp hc
  simpa using this

theorem head_dropWhile_digits (s : List Char) :
    ∀ c, (s.dropWhile decimalDigits.contains).head? = some c → c ∉ decimalDigits := by
  induction s with
  | nil => intro c h; simp at h
  | cons a t ih =>
    intro c h
    by_cases ha : decimalDigits.contains a = true
    · simp only [List.dropWhile, ha] at h
      exact ih c h
    · have ha2 : decimalDigits.contains a = false := by simpa using ha
      simp only [List.dropWhile, ha2, List.head?_cons, Option.some.injEq] at h
      rw [← h]; simpa using ha2

theorem scanUint_overflow (bitSize : Nat) (ds rest : List Char)
    (hb : bitSize = 32 ∨ bitSize = 8)
    (hne : ds ≠ []) (hd : ∀ c ∈ ds, c ∈ decimalDigits)
    (hr : ∀ c, rest.head? = some c → c ∉ decimalDigits) (hv : 2 ^ bitSize ≤ digitsValue 0 ds) :
    ∃ e, scanUint bitSize (ds ++ rest) = .error e ∧ e.isScanError = true := by
  obtain ⟨c, cs, rfl⟩ := List.exists_cons_of_ne_nil hne
  have hsk := SkipSpace_digit c (cs ++ rest) (hd c (List.mem_cons_self _ _))
  have hsn := scanNumber_digits [] (c :: cs) rest hne hd hr
  have hpu := ParseUint_digits (c :: cs) hne hd
  simp only [List.cons_append, List.nil_append] at hsk hsn
  simp only [scanUint, List.cons_append, hsk, hsn, hpu]
  by_cases h64 : digitsValue 0 (c :: cs) < 2 ^ 64
  · rw [if_pos h64]
    have hfit := (fits_iff bitSize _ hb h64).mpr hv
    simp only [hfit, ne_eq, not_false_eq_true, if_true]
    exact ⟨_, rfl, rfl⟩
  · rw [if_neg h64]
    exact ⟨_, rfl, rfl⟩

theorem scanUint_no_digit (bitSize : Nat) (r : List Char)
    (hhead : ∀ c, r.head? = some c → isSpace c = false)
    (hnd : r.takeWhile decimalDigits.contains = []) :
    ∃ e, scanUint bitSize r = .error e ∧ e.isScanError = true := by
  cases r with
  | nil => exact ⟨.EOF, by simp [scanUint, SkipSpace], rfl⟩
  | cons c t =>
    have hsk := SkipSpace_not_space c t (hhead c rfl)
    have hc : decimalDigits.contains c = false := by
      by_contra hcon
      have hcon2 : decimalDigits.contains c = true := by simpa using hcon
      rw [List.takeWhile_cons, hcon2] at hnd
      simp at hnd
    refine ⟨.scanError "expected integer", ?_, rfl⟩
    simp only [scanUint, hsk, scanNumber, hc]
    simp

theorem scanfUintStep_spec (lit : List Char) (bitSize : Nat) (f : List Char)
    (hb : bitSize = 32 ∨ bitSize = 8) :
    (readUint lit f = none → ∃ e, scanfUintStep lit bitSize f = .error e ∧
      e.isScanError = true) ∧
    (∀ v rest, readUint lit f = some (v, rest) →
      (v < 2 ^ bitSize → scanfUintStep lit bitSize f = .ok (v, rest)) ∧
      (2 ^ bitSize ≤ v → ∃ e, scanfUintStep lit bitSize f = .error e ∧
        e.isScanError = true)) := by
  rcases advance_spec lit f with ⟨hp, ha⟩ | ⟨hp, e, ha, he⟩
  · -- the literal matches
    have hsp := SkipSpace_spec (f.drop lit.length)
    by_cases hnl : ((f.drop lit.length).dropWhile isBlank).head? = some '\n'
    · -- a newline after the blanks
      have htw : (((f.drop lit.length).dropWhile isBlank).takeWhile decimalDigits.contains) = [] := by
        cases hr : (f.drop lit.length).dropWhile isBlank with
        | nil => rfl
        | cons c t =>
          rw [hr] at hnl
          simp only [List.head?_cons, Option.some.injEq] at hnl
          subst hnl
          have : decimalDigits.contains '\n' = false := by decide
          rw [List.takeWhile_cons, this]
          simp
      constructor
      · intro _
        exact ⟨.scanError "unexpected newline", by simp only [scanfUintStep, ha, hsp.1 hnl],
          rfl⟩
      · intro v rest h
        simp [readUint, hp, htw] at h
    · have hsk := hsp.2 hnl
      have hhead : ∀ c, ((f.drop lit.length).dropWhile isBlank).head? = some c →
          isSpace c = false := by
        intro c hc
        have h1 := head_dropWhile_isBlank _ c hc
        have h2 : c ≠ '\n' := by
          intro e; rw [e] at hc; exact hnl hc
        simpa [isBlank, h2] using h1
      have hstep : scanfUintStep lit bitSize f =
          scanUint bitSize ((f.drop lit.length).dropWhile isBlank) := by
        simp only [scanfUintStep, ha, hsk]
      rw [hstep]
      by_cases htw : (((f.drop lit.length).dropWhile isBlank).takeWhile
          decimalDigits.contains) = []
      · constructor
        · intro _
          exact scanUint_no_digit bitSize _ hhead htw
        · intro v rest h
          simp [readUint, hp, htw] at h
      · constructor
        · intro h
          simp [readUint, hp, htw] at h
        · intro v rest h
          simp only [readUint, hp, htw, if_true, if_false, Option.some.injEq,
            Prod.mk.injEq] at h
          obtain ⟨hv, hrest⟩ := h
          have hsplit := List.takeWhile_append_dropWhile decimalDigits.contains
            ((f.drop lit.length).dropWhile isBlank)
          constructor
          · intro hlt
            rw [← hsplit, ← hv, ← hrest]
            exact scanUint_digits bitSize _ _ hb htw (takeWhile_digits_mem _)
              (head_dropWhile_digits _) (by rw [hv]; exact hlt)
          · intro hge
            rw [← hsplit]
            exact scanUint_overflow bitSize _ _ hb htw (takeWhile_digits_mem _)
              (head_dropWhile_digits _) (by rw [hv]; exact hge)
  · -- the literal does not match
    constructor
    · intro _
      exact ⟨e, by simp only [scanfUintStep, ha], he⟩
    · intro v rest h
      simp [readUint, hp] at h

theorem scanInt_digits (ds : List Char) (hne : ds ≠ []) (hd : ∀ c ∈ ds, c ∈ decimalDigits)
    (hv : digitsValue 0 ds < 2 ^ 63) :
    scanInt ds = .ok ((digitsValue 0 ds : Int), []) := by
  obtain ⟨c, cs, rfl⟩ := List.exists_cons_of_ne_nil hne
  have hc := digit_facts c (hd c (List.mem_cons_self _ _))
  have hsk := SkipSpace_digit c cs (hd c (List.mem_cons_self _ _))
  have hsn := scanNumber_digits [] (c :: cs) [] hne hd (by simp)
  have hpu := ParseUint_digits (c :: cs) hne hd
  rw [if_pos (by omega)] at hpu
  have hplus : c ≠ '+' := by
    intro e; rw [e] at hc; exact absurd hc.2.2.2.2.2.2.1 (by decide)
  have hminus : c ≠ '-' := by
    intro e; rw [e] at hc; exact absurd hc.2.2.2.2.2.2.1 (by decide)
  have hpi : ParseInt (c :: cs) = .ok (digitsValue 0 (c :: cs) : Int) := by
    simp only [ParseInt, hplus, hminus, or_self, if_false, hpu]
    simp only [false_and, if_false, not_false_eq_true, true_and]
    rw [if_neg (by omega)]
  simp only [List.append_nil, List.nil_append] at hsn
  simp only [scanInt, hsk, hc.2.2.2.2.2.2.1, Bool.false_eq_true, if_false, hsn, hpi]

theorem scanInt_minus_digits (ds : List Char) (hne : ds ≠ [])
    (hd : ∀ c ∈ ds, c ∈ decimalDigits) (hv : digitsValue 0 ds ≤ 2 ^ 63) :
    scanInt ('-' :: ds) = .ok (-(digitsValue 0 ds : Int), []) := by
  have hsk : SkipSpace ('-' :: ds) = .ok ('-' :: ds) := SkipSpace_not_space '-' ds (by decide)
  have hsn := scanNumber_digits ['-'] ds [] hne hd (by simp)
  have hpu := ParseUint_digits ds hne hd
  rw [if_pos (by omega)] at hpu
  have hsg : sign.contains '-' = true := by decide
  have hpi : ParseInt ('-' :: ds) = .ok (-(digitsValue 0 ds : Int)) := by
    simp only [ParseInt, or_true, if_true, hpu]
    simp only [not_true_eq_false, false_and, if_false, true_and]
    rw [if_neg (by omega)]
  simp only [List.append_nil, List.singleton_append] at hsn
  simp only [scanInt, hsk, hsg, if_true, hsn, hpi]

theorem doScanfVersion_fmtInt (v : Int) (hlo : -(2 ^ 63) ≤ v) (hhi : v < 2 ^ 63) :
    doScanfVersion ("v=".toList ++ fmtInt v) = .ok v := by
  obtain ⟨h1, h2, h3⟩ := fmtUint_spec v.natAbs
  simp only [doScanfVersion, advance_append]
  by_cases hneg : v < 0
  · have hs : scanInt ('-' :: fmtUint v.natAbs) = .ok (-(digitsValue 0 (fmtUint v.natAbs) : Int), []) :=
      scanInt_minus_digits _ h1 h2 (by rw [h3]; omega)
    have hsk : SkipSpace ('-' :: fmtUint v.natAbs) = .ok ('-' :: fmtUint v.natAbs) :=
      SkipSpace_not_space '-' _ (by decide)
    simp only [fmtInt, hneg, if_true, hsk, hs, h3]
    congr 1
    omega
  · have hs := scanInt_digits _ h1 h2 (by rw [h3]; omega)
    obtain ⟨c, cs, hcs⟩ := List.exists_cons_of_ne_nil h1
    have hsk : SkipSpace (fmtUint v.natAbs) = .ok (fmtUint v.natAbs) := by
      rw [hcs]
      exact SkipSpace_digit c cs (h2 c (by rw [hcs]; exact List.mem_cons_self _ _))
    simp only [fmtInt, hneg, if_false, hsk, hs, h3]
    congr 1
    omega

theorem SscanfVersion_fmtInt (v : Int) (hlo : -(2 ^ 63) ≤ v) (hhi : v < 2 ^ 63) :
    SscanfVersion ("v=".toList ++ fmtInt v) = .ok v := by
  have lv := fmtUint_length_le v.natAbs 18 (by omega)
  have hlen : ("v=".toList ++ fmtInt v).length ≤ hugeWid := by
    rw [hugeWid_eq]
    have e1 : "v=".toList.length = 2 := by decide
    simp only [List.length_append, e1, fmtInt]
    split
    · simp only [List.length_cons]; omega
    · omega
  rw [SscanfVersion, List.take_of_length_le hlen]
  exact doScanfVersion_fmtInt v hlo hhi

theorem doScanfParams_rejects (f : List Char) (h : paramsAccepted f = false) :
    ∃ e, doScanfParams f = .error e ∧ e.isScanError = true := by
  have s1 := scanfUintStep_spec "m=".toList 32 f (Or.inl rfl)
  cases h1 : readUint "m=".toList f with
  | none =>
    obtain ⟨e, he, hs⟩ := s1.1 h1
    exact ⟨e, by simp only [doScanfParams, he], hs⟩
  | some mr =>
    obtain ⟨m, r1⟩ := mr
    by_cases hm : m < 2 ^ 32
    · have e1 := (s1.2 m r1 h1).1 hm
      have s2 := scanfUintStep_spec ",t=".toList 32 r1 (Or.inl rfl)
      cases h2 : readUint ",t=".toList r1 with
      | none =>
        obtain ⟨e, he, hs⟩ := s2.1 h2
        exact ⟨e, by simp only [doScanfParams, e1, he], hs⟩
      | some tr =>
        obtain ⟨t, r2⟩ := tr
        by_cases ht : t < 2 ^ 32
        · have e2 := (s2.2 t r2 h2).1 ht
          have s3 := scanfUintStep_spec ",p=".toList 8 r2 (Or.inr rfl)
          cases h3 : readUint ",p=".toList r2 with
          | none =>
            obtain ⟨e, he, hs⟩ := s3.1 h3
            exact ⟨e, by simp only [doScanfParams, e1, e2, he], hs⟩
          | some pr =>
            obtain ⟨p, r3⟩ := pr
            by_cases hp : p < 2 ^ 8
            · simp only [paramsAccepted, readParams, h1, h2, h3] at h
              rw [decide_eq_true hm, decide_eq_true ht, decide_eq_true hp] at h
              exact absurd h (by decide)
            · obtain ⟨e, he, hs⟩ := (s3.2 p r3 h3).2 (by omega)
              exact ⟨e, by simp only [doScanfParams, e1, e2, he], hs⟩
        · obtain ⟨e, he, hs⟩ := (s2.2 t r2 h2).2 (by omega)
          exact ⟨e, by simp only [doScanfParams, e1, he], hs⟩
    · obtain ⟨e, he, hs⟩ := (s1.2 m r1 h1).2 (by omega)
      exact ⟨e, by simp only [doScanfParams, he], hs⟩

theorem SscanfParams_rejects (f : List Char) (h : paramsAccepted (f.take hugeWid) = false) :
    ∃ e, SscanfParams f = .error e ∧ e.isScanError = true :=
  doScanfParams_rejects (f.take hugeWid) h

theorem scanNumber_no_digit (buf r : List Char)
    (h : ∀ d t, r = d :: t → decimalDigits.contains d = false) :
    ∃ e, scanNumber buf r = .error e ∧ e.isScanError = true := by
  cases r with
  | nil => exact ⟨.EOF, rfl, rfl⟩
  | cons d t =>
    refine ⟨.scanError "expected integer", ?_, rfl⟩
    simp only [scanNumber, h d t rfl]
    simp

theorem doScanfVersion_rejects (f : List Char) (h : versionShape f = false) :
    ∃ e, doScanfVersion f = .error e ∧ e.isScanError = true := by
  rcases advance_spec "v=".toList f with ⟨hp, ha⟩ | ⟨hp, e, ha, he⟩
  · have hlen : "v=".toList.length = 2 := rfl
    rw [hlen] at ha
    have hsp := SkipSpace_spec (f.drop 2)
    by_cases hnl : ((f.drop 2).dropWhile isBlank).head? = some '\n'
    · exact ⟨.scanError "unexpected newline", by simp only [doScanfVersion, ha, hsp.1 hnl], rfl⟩
    · have hsk := hsp.2 hnl
      have hv : doScanfVersion f =
          match scanInt ((f.drop 2).dropWhile isBlank) with
          | .error e => .error e
          | .ok (version, _) => .ok version := by
        simp only [doScanfVersion, ha, hsk]
      cases hr : (f.drop 2).dropWhile isBlank with
      | nil =>
        refine ⟨.EOF, ?_, rfl⟩
        rw [hv, hr]
        simp [scanInt, SkipSpace]
      | cons c t =>
        have hc1 := head_dropWhile_isBlank (f.drop 2) c (by rw [hr]; rfl)
        have hc2 : c ≠ '\n' := by
          intro e; rw [hr, e] at hnl; exact hnl rfl
        have hc3 : isSpace c = false := by simpa [isBlank, hc2] using hc1
        have hsk2 := SkipSpace_not_space c t hc3
        simp only [versionShape, hp, if_true, hr] at h
        by_cases hs : sign.contains c = true
        · simp only [hs, if_true] at h
          obtain ⟨e, he, hes⟩ := scanNumber_no_digit [c] t (by
            intro d t2 ht
            subst ht
            simpa using h)
          refine ⟨e, ?_, hes⟩
          rw [hv, hr]
          simp only [scanInt, hsk2, hs, if_true, he]
        · have hs2 : sign.contains c = false := by simpa using hs
          simp only [hs2, Bool.false_eq_true, if_false] at h
          obtain ⟨e, he, hes⟩ := scanNumber_no_digit [] (c :: t) (by
            intro d t2 ht
            simp only [List.cons.injEq] at ht
            rw [← ht.1]; exact h)
          refine ⟨e, ?_, hes⟩
          rw [hv, hr]
          simp only [scanInt, hsk2, hs2, Bool.false_eq_true, if_false, he]
  · exact ⟨e, by simp only [doScanfVersion, ha], he⟩

theorem dropWhile_append_of_ne_nil (p : Char → Bool) (l b : List Char)
    (h : l.dropWhile p ≠ []) : (l ++ b).dropWhile p = l.dropWhile p ++ b := by
  induction l with
  | nil => simp at h
  | cons a t ih =>
    by_cases ha : p a = true
    · simp only [List.cons_append, List.dropWhile_cons, ha, if_true] at h ⊢
      exact ih h
    · have ha2 : p a = false := by simpa using ha
      simp only [List.cons_append, List.dropWhile_cons, ha2, Bool.false_eq_true, if_false]

theorem versionShape_append (a b : List Char) (h : versionShape a = true) :
    versionShape (a ++ b) = true := by
  unfold versionShape at h
  by_cases hp : "v=".toList.isPrefixOf a = true
  · rw [if_pos hp] at h
    cases a with
    | nil => simp [List.isPrefixOf] at hp
    | cons x a1 =>
      cases a1 with
      | nil => simp [List.isPrefixOf] at hp
      | cons y a2 =>
        have hp2 : "v=".toList.isPrefixOf (x :: y :: (a2 ++ b)) = true := by
          simp [List.isPrefixOf] at hp ⊢
          exact hp
        simp only [List.drop_succ_cons, List.drop_zero] at h
        have hne : a2.dropWhile isBlank ≠ [] := by
          intro e
          rw [e] at h
          simp at h
        have hd := dropWhile_append_of_ne_nil isBlank a2 b hne
        show versionShape (x :: y :: (a2 ++ b)) = true
        simp only [versionShape, hp2, if_true, List.drop_succ_cons, List.drop_zero, hd]
        cases hr : a2.dropWhile isBlank with
        | nil => exact absurd hr hne
        | cons c r =>
          rw [hr] at h
          simp only at h
          simp only [List.cons_append]
          by_cases hs : sign.contains c = true
          · simp only [hs, if_true] at h ⊢
            cases r with
            | nil => simp at h
            | cons d r2 => simpa using h
          · have hs2 : sign.contains c = false := by simpa using hs
            simp only [hs2, Bool.false_eq_true, if_false] at h ⊢
            exact h
  · rw [if_neg hp] at h
    simp at h

theorem SscanfVersion_rejects (f : List Char) (h : versionShape f = false) :
    ∃ e, SscanfVersion f = .error e ∧ e.isScanError = true := by
  apply doScanfVersion_rejects (f.take hugeWid)
  by_contra hcon
  have ht : versionShape (f.take hugeWid) = true := by simpa using hcon
  have := versionShape_append (f.take hugeWid) (f.drop hugeWid) ht
  rw [List.take_append_drop, h] at this
  exact absurd this (by decide)

theorem versionShape_of_exact (f : List Char) (h : versionExact f = true) :
    versionShape f = true := by
  unfold versionExact at h
  by_cases hp : "v=".toList.isPrefixOf f = true
  · rw [if_pos hp] at h
    cases hr : f.drop 2 with
    | nil => rw [hr] at h; simp at h
    | cons c r =>
      rw [hr] at h
      simp only at h
      by_cases hs : sign.contains c = true
      · have hb : isBlank c = false := by
          have : c = '+' ∨ c = '-' := by simpa [sign] using hs
          rcases this with e | e <;> subst e <;> decide
        simp only [hs, if_true, Bool.and_eq_true, Bool.not_eq_true', List.all_eq_true] at h
        cases r with
        | nil => simp at h
        | cons d t =>
          have hd := h.2 d (List.mem_cons_self _ _)
          simp only [versionShape, hp, if_true, hr, List.dropWhile_cons, hb, Bool.false_eq_true,
            if_false, hs, hd]
      · have hs2 : sign.contains c = false := by simpa using hs
        simp only [hs2, Bool.false_eq_true, if_false, List.all_eq_true] at h
        have hd := h c (List.mem_cons_self _ _)
        have hb : isBlank c = false := by
          have := (digit_facts c (by simpa using hd)).2.2.1
          simp [isBlank, this]
        simp only [versionShape, hp, if_true, hr, List.dropWhile_cons, hb, Bool.false_eq_true,
          if_false, hs2, hd]
  · rw [if_neg hp] at h; simp at h

theorem readUint_of_exactUint (lit f r : List Char) (h : exactUint lit f = some r) :
    ∃ v, readUint lit f = some (v, r) := by
  unfold exactUint at h
  by_cases hp : lit.isPrefixOf f = true
  · rw [if_pos hp] at h
    by_cases htw : (f.drop lit.length).takeWhile decimalDigits.contains = []
    · rw [if_pos htw] at h; simp at h
    · rw [if_neg htw] at h
      have hdw : (f.drop lit.length).dropWhile isBlank = f.drop lit.length := by
        cases hd : f.drop lit.length with
        | nil => rfl
        | cons c t =>
          rw [hd] at htw
          have hc : decimalDigits.contains c = true := by
            by_contra hcon
            have hcon2 : decimalDigits.contains c = false := by simpa using hcon
            rw [List.takeWhile_cons, hcon2] at htw
            simp at htw
          have hb : isBlank c = false := by
            have := (digit_facts c (by simpa using hc)).2.2.1
            simp [isBlank, this]
          rw [List.dropWhile_cons, hb]
          simp
      refine ⟨digitsValue 0 ((f.drop lit.length).takeWhile decimalDigits.contains), ?_⟩
      simp only [readUint, hp, if_true, hdw, htw, if_false]
      simpa using h
  · rw [if_neg hp] at h; simp at h

theorem readParams_of_exact (f : List Char) (h : paramsExact f = true) :
    ∃ m t p, readParams f = some (m, t, p) := by
  unfold paramsExact at h
  cases h1 : exactUint "m=".toList f with
  | none => rw [h1] at h; simp at h
  | some r1 =>
    rw [h1] at h
    simp only at h
    cases h2 : exactUint ",t=".toList r1 with
    | none => rw [h2] at h; simp at h
    | some r2 =>
      rw [h2] at h
      simp only at h
      cases h3 : exactUint ",p=".toList r2 with
      | none => rw [h3] at h; simp at h
      | some r3 =>
        obtain ⟨m, e1⟩ := readUint_of_exactUint _ _ _ h1
        obtain ⟨t, e2⟩ := readUint_of_exactUint _ _ _ h2
        obtain ⟨p, e3⟩ := readUint_of_exactUint _ _ _ h3
        exact ⟨m, t, p, by simp only [readParams, e1, e2, e3]⟩

/-! ## Lemmas: constant-time comparison -/

theorem or_eq_zero (a b : Nat) : a ||| b = 0 ↔ a = 0 ∧ b = 0 := by
  constructor
  · intro h
    have ht : ∀ i, (a ||| b).testBit i = false := by
      intro i; rw [h]; exact Nat.zero_testBit i
    constructor
    · apply Nat.eq_of_testBit_eq
      intro i
      have := ht i
      rw [Nat.testBit_or] at this
      simp only [Bool.or_eq_false_iff] at this
      rw [this.1, Nat.zero_testBit]
    · apply Nat.eq_of_testBit_eq
      intro i
      have := ht i
      rw [Nat.testBit_or] at this
      simp only [Bool.or_eq_false_iff] at this
      rw [this.2, Nat.zero_testBit]
  · rintro ⟨rfl, rfl⟩; rfl

theorem foldOrXor_lt (zs : List (Byte × Byte)) :
    ∀ a, a < 2 ^ 8 → zs.foldl (fun v xy => v ||| (xy.1.val ^^^ xy.2.val)) a < 2 ^ 8 := by
  induction zs with
  | nil => intro a ha; simpa using ha
  | cons z zs ih =>
    intro a ha
    simp only [List.foldl_cons]
    exact ih _ (Nat.or_lt_two_pow ha (Nat.xor_lt_two_pow z.1.isLt z.2.isLt))

theorem foldOrXor_eq_zero (x : List Byte) :
    ∀ (y : List Byte) (a : Nat), x.length = y.length →
      ((x.zip y).foldl (fun v xy => v ||| (xy.1.val ^^^ xy.2.val)) a = 0 ↔ a = 0 ∧ x = y) := by
  induction x with
  | nil =>
    intro y a h
    cases y with
    | nil => simp
    | cons b bs => simp at h
  | cons c cs ih =>
    intro y a h
    cases y with
    | nil => simp at h
    | cons b bs =>
      simp only [List.length_cons, Nat.add_right_cancel_iff] at h
      simp only [List.zip_cons_cons, List.foldl_cons, ih bs _ h, or_eq_zero, Nat.xor_eq_zero,
        List.cons.injEq, Fin.val_inj]
      tauto

theorem ConstantTimeByteEq_zero (v : Nat) (h : v < 2 ^ 8) :
    ConstantTimeByteEq v 0 = 1 ↔ v = 0 := by
  simp only [ConstantTimeByteEq, Nat.xor_zero]
  omega

theorem ConstantTimeCompare_eq_one (x y : List Byte) : ConstantTimeCompare x y = 1 ↔ x = y := by
  unfold ConstantTimeCompare
  split
  · rename_i h
    constructor
    · intro h0; omega
    · intro hxy; exact absurd (congrArg List.length hxy) h
  · rename_i h
    have hlen : x.length = y.length := by
      by_contra hne; exact h hne
    rw [ConstantTimeByteEq_zero _ (foldOrXor_lt _ 0 (by norm_num)), foldOrXor_eq_zero x y 0 hlen]
    simp


/-! ## Lemmas: `Run` and `Verify` -/

theorem ConstantTimeCompare_beq (x y : List Byte) :
    (ConstantTimeCompare x y == 1) = decide (x = y) := by
  by_cases h : x = y
  · have := (ConstantTimeCompare_eq_one x y).mpr h
    rw [this]
    simp [h]
  · have := (ConstantTimeCompare_eq_one x y).not.mpr h
    simp [h, this]

theorem bitChar_injective : Function.Injective bitChar := by
  intro a b h
  cases a <;> cases b <;> first | rfl | exact absurd h (by decide)

theorem argon2IDKey_ok (IDKey : KDF) (password salt : List Byte)
    (time memory threads keyLen : Nat) (ht : 1 ≤ time) (hp : 1 ≤ threads) (hk : keyLen ≠ 0) :
    argon2IDKey IDKey password salt time memory threads keyLen =
      .ok (IDKey password salt time memory threads keyLen) := by
  unfold argon2IDKey
  rw [if_neg (by omega), if_neg (by omega), if_neg hk]

theorem Verify_ok (IDKey : KDF) (plaintext hashed : List Char) (p : params)
    (salt key : List Byte) (h : decodeHash hashed = .ok (p, salt, key))
    (ht : 1 ≤ p.iterations) (hp : 1 ≤ p.parallelism) (hk : p.keyLength ≠ 0) :
    Verify IDKey plaintext hashed =
      (decide (key = IDKey (stringBytes plaintext) salt p.iterations p.memory p.parallelism
        p.keyLength), none) := by
  simp only [Verify, h, argon2IDKey_ok IDKey _ _ _ _ _ _ ht hp hk, ConstantTimeCompare_beq]

theorem Run_ok (IDKey : KDF) (randRead : RandSource) (text : List Char) (salt : List Byte)
    (hrand : randRead hashParam.saltLength = .ok salt) :
    Run IDKey randRead text =
      (Sprintf argon2Version hashParam.memory hashParam.iterations hashParam.parallelism
        (EncodeToString salt)
        (EncodeToString (IDKey (stringBytes text) salt hashParam.iterations hashParam.memory
          hashParam.parallelism hashParam.keyLength)), none) := by
  simp only [Run, generateRandomBytes, hrand,
    argon2IDKey_ok IDKey _ _ _ _ _ _ (by decide : 1 ≤ hashParam.iterations)
      (by decide : 1 ≤ hashParam.parallelism) (by decide : hashParam.keyLength ≠ 0)]

theorem Verify_Run_eq (IDKey : KDF) (randRead : RandSource) (P Q : List Char)
    (salt : List Byte) (hrand : randRead hashParam.saltLength = .ok salt)
    (hlen : (IDKey (stringBytes P) salt hashParam.iterations hashParam.memory
      hashParam.parallelism hashParam.keyLength).length = hashParam.keyLength) :
    Verify IDKey Q (Run IDKey randRead P).1 =
      (decide (IDKey (stringBytes P) salt hashParam.iterations hashParam.memory
          hashParam.parallelism hashParam.keyLength =
        IDKey (stringBytes Q) salt hashParam.iterations hashParam.memory
          hashParam.parallelism hashParam.keyLength), none) := by
  rw [Run_ok IDKey randRead P salt hrand]
  have hd := decodeHash_Sprintf hashParam.memory hashParam.iterations hashParam.parallelism salt
    (IDKey (stringBytes P) salt hashParam.iterations hashParam.memory
      hashParam.parallelism hashParam.keyLength) (by decide) (by decide) (by decide)
  rw [Verify_ok IDKey Q _ _ _ _ hd (show 1 ≤ hashParam.iterations by decide)
    (show 1 ≤ hashParam.parallelism by decide)
    (by show _ % 2 ^ 32 ≠ 0; rw [hlen]; decide), hlen]
  rfl

/-! ## Lemmas: the encoded string and its fields -/

theorem fmtInt_no_dollar (i : Int) : ∀ c ∈ fmtInt i, c ≠ '$' := by
  intro c hc
  unfold fmtInt at hc
  split at hc
  · rcases List.mem_cons.mp hc with h | h
    · rw [h]; decide
    · exact fmtUint_no_dollar _ c h
  · exact fmtUint_no_dollar _ c hc

theorem Split_Sprintf_any (version : Int) (m t p : Nat) (salt hash : List Char)
    (hs : ∀ c ∈ salt, c ≠ '$') (hh : ∀ c ∈ hash, c ≠ '$') :
    Split (Sprintf version m t p salt hash) '$' =
      [[], "argon2id".toList, "v=".toList ++ fmtInt version,
        "m=".toList ++ fmtUint m ++ ",t=".toList ++ fmtUint t ++ ",p=".toList ++ fmtUint p,
        salt, hash] := by
  have e : Sprintf version m t p salt hash =
      [] ++ '$' :: ("argon2id".toList ++ '$' :: (("v=".toList ++ fmtInt version) ++ '$' ::
        (("m=".toList ++ fmtUint m ++ ",t=".toList ++ fmtUint t ++ ",p=".toList ++ fmtUint p)
          ++ '$' :: (salt ++ '$' :: hash)))) := by
    simp [Sprintf]
  have hver : ∀ c ∈ "v=".toList ++ fmtInt version, c ≠ '$' := by
    intro c hc
    rcases List.mem_append.mp hc with hc | hc
    · have hlit : ∀ c ∈ "v=".toList, c ≠ '$' := by decide
      exact hlit c hc
    · exact fmtInt_no_dollar version c hc
  have hpar : ∀ c ∈ "m=".toList ++ fmtUint m ++ ",t=".toList ++ fmtUint t ++ ",p=".toList ++
      fmtUint p, c ≠ '$' := by
    intro c hc
    simp only [List.mem_append] at hc
    rcases hc with ((((hc | hc) | hc) | hc) | hc) | hc
    · revert c; decide
    · exact fmtUint_no_dollar m c hc
    · revert c; decide
    · exact fmtUint_no_dollar t c hc
    · revert c; decide
    · exact fmtUint_no_dollar p c hc
  rw [e, Split_append_sep _ _ _ (by simp), Split_append_sep _ _ _ (by decide),
    Split_append_sep _ _ _ hver, Split_append_sep _ _ _ hpar,
    Split_append_sep _ _ _ hs, Split_no_sep _ _ hh]

/-! ## Lemmas: `RunSha1` -/

theorem stringBytes_append (a b : List Char) :
    stringBytes (a ++ b) = stringBytes a ++ stringBytes b := by
  simp only [stringBytes, List.flatMap_append]

theorem foldl_written (str : List (List Char)) : ∀ written : List Byte,
    str.foldl (fun written s => written ++ stringBytes s) written =
      written ++ stringBytes str.flatten := by
  induction str with
  | nil => intro w; simp [stringBytes]
  | cons s rest ih =>
    intro w
    rw [List.foldl_cons, ih, List.flatten_cons, stringBytes_append, List.append_assoc]

theorem RunSha1_eq (sha1Sum : Digest) (str : List (List Char)) :
    RunSha1 sha1Sum str = hexEncodeToString (sha1Sum (stringBytes str.flatten)) := by
  simp only [RunSha1, foldl_written, List.nil_append]

theorem hextable_inj (i j : Nat) (hi : i < 16) (hj : j < 16)
    (h : hextable.getD i '0' = hextable.getD j '0') : i = j := by
  revert j
  revert i
  decide

theorem hexEncodeToString_inj (x : List Byte) : ∀ y : List Byte,
    hexEncodeToString x = hexEncodeToString y → x = y := by
  induction x with
  | nil =>
    intro y h
    cases y with
    | nil => rfl
    | cons b bs => simp [hexEncodeToString] at h
  | cons a as ih =>
    intro y h
    cases y with
    | nil => simp [hexEncodeToString] at h
    | cons b bs =>
      simp only [hexEncodeToString, List.cons.injEq] at h
      obtain ⟨h1, h2, h3⟩ := h
      have ha := a.isLt
      have hb := b.isLt
      have e1 := hextable_inj _ _ (by omega) (by omega) h1
      have e2 : a.val % 16 = b.val % 16 := by
        have := Nat.and_pow_two_sub_one_eq_mod a.val 4
        have := Nat.and_pow_two_sub_one_eq_mod b.val 4
        have hx : a.val &&& 0x0f = a.val % 16 := Nat.and_pow_two_sub_one_eq_mod a.val 4
        have hy : b.val &&& 0x0f = b.val % 16 := Nat.and_pow_two_sub_one_eq_mod b.val 4
        have := hextable_inj (a.val &&& 0x0f) (b.val &&& 0x0f) (by rw [hx]; omega)
          (by rw [hy]; omega) h2
        omega
      have hab : a = b := by
        apply Fin.ext
        omega
      rw [hab, ih bs h3]

/-! ## Lemmas: what a successful `decodeHash` tells -/

theorem length_six (l : List (List Char)) (h : l.length = 6) :
    ∃ c0 c1 c2 c3 c4 c5, l = [c0, c1, c2, c3, c4, c5] := by
  match l, h with
  | [c0, c1, c2, c3, c4, c5], _ => exact ⟨c0, c1, c2, c3, c4, c5, rfl⟩

theorem decodeHash_six (hashed : List Char) (h : (Split hashed '$').length = 6) :
    ∃ c0 c1 c2 c3 c4 c5, Split hashed '$' = [c0, c1, c2, c3, c4, c5] ∧
      decodeHash hashed = decodeFields c2 c3 c4 c5 := by
  obtain ⟨c0, c1, c2, c3, c4, c5, hs⟩ := length_six _ h
  exact ⟨c0, c1, c2, c3, c4, c5, hs, decodeHash_fields hashed c0 c1 c2 c3 c4 c5 hs⟩

theorem decodeHash_field_count_ne (hashed : List Char) (h : (Split hashed '$').length ≠ 6) :
    decodeHash hashed = .error .ErrInvalidHash := by
  simp only [decodeHash, h, ne_eq, not_false_eq_true, if_true]

theorem decodeHash_ok_fields (hashed : List Char) (r : params × List Byte × List Byte)
    (h : decodeHash hashed = .ok r) :
    ∃ c0 c1 c2 c3 c4 c5, Split hashed '$' = [c0, c1, c2, c3, c4, c5] ∧
      decodeFields c2 c3 c4 c5 = .ok r := by
  by_cases h6 : (Split hashed '$').length = 6
  · obtain ⟨c0, c1, c2, c3, c4, c5, hs, hd⟩ := decodeHash_six hashed h6
    exact ⟨c0, c1, c2, c3, c4, c5, hs, by rw [← hd]; exact h⟩
  · rw [decodeHash_field_count_ne hashed h6] at h
    cases h

theorem decodeFields_ok (c2 c3 c4 c5 : List Char) (p : params) (salt key : List Byte)
    (h : decodeFields c2 c3 c4 c5 = .ok (p, salt, key)) :
    SscanfVersion c2 = .ok argon2Version ∧
      SscanfParams c3 = .ok (p.memory, p.iterations, p.parallelism) ∧
      DecodeString c4 = .ok salt ∧ DecodeString c5 = .ok key ∧
      p.saltLength = salt.length % 2 ^ 32 ∧ p.keyLength = key.length % 2 ^ 32 := by
  unfold decodeFields at h
  cases hv : SscanfVersion c2 with
  | error e => rw [hv] at h; cases h
  | ok v =>
    rw [hv] at h
    simp only at h
    by_cases hne : v ≠ argon2Version
    · rw [if_pos hne] at h; cases h
    · rw [if_neg hne] at h
      have hveq : v = argon2Version := by
        by_contra hcon; exact hne hcon
      cases hp : SscanfParams c3 with
      | error e => rw [hp] at h; cases h
      | ok mtp =>
        obtain ⟨m, t, par⟩ := mtp
        rw [hp] at h
        simp only at h
        cases hs : DecodeString c4 with
        | error e => rw [hs] at h; cases h
        | ok s =>
          rw [hs] at h
          simp only at h
          cases hk : DecodeString c5 with
          | error e => rw [hk] at h; cases h
          | ok k =>
            rw [hk] at h
            simp only [Except.ok.injEq, Prod.mk.injEq] at h
            obtain ⟨h1, h2, h3⟩ := h
            subst h1 h2 h3
            rw [hveq]
            exact ⟨rfl, rfl, rfl, rfl, rfl, rfl⟩

theorem scanfUintStep_ok_lt (lit : List Char) (bitSize : Nat) (f : List Char) (v : Nat)
    (r : List Char) (hb : bitSize = 32 ∨ bitSize = 8)
    (h : scanfUintStep lit bitSize f = .ok (v, r)) : v < 2 ^ bitSize := by
  have sp := scanfUintStep_spec lit bitSize f hb
  cases hr : readUint lit f with
  | none =>
    obtain ⟨e, he, _⟩ := sp.1 hr
    rw [he] at h; cases h
  | some vr =>
    obtain ⟨v2, r2⟩ := vr
    by_cases hlt : v2 < 2 ^ bitSize
    · have := (sp.2 v2 r2 hr).1 hlt
      rw [this] at h
      simp only [Except.ok.injEq, Prod.mk.injEq] at h
      rw [← h.1]; exact hlt
    · obtain ⟨e, he, _⟩ := (sp.2 v2 r2 hr).2 (by omega)
      rw [he] at h; cases h

theorem doScanfParams_ok_lt (f : List Char) (m t p : Nat) (h : doScanfParams f = .ok (m, t, p)) :
    m < 2 ^ 32 ∧ t < 2 ^ 32 ∧ p < 2 ^ 8 := by
  unfold doScanfParams at h
  cases h1 : scanfUintStep "m=".toList 32 f with
  | error e => rw [h1] at h; cases h
  | ok mr =>
    obtain ⟨m1, r1⟩ := mr
    rw [h1] at h
    simp only at h
    cases h2 : scanfUintStep ",t=".toList 32 r1 with
    | error e => rw [h2] at h; cases h
    | ok tr =>
      obtain ⟨t1, r2⟩ := tr
      rw [h2] at h
      simp only at h
      cases h3 : scanfUintStep ",p=".toList 8 r2 with
      | error e => rw [h3] at h; cases h
      | ok pr =>
        obtain ⟨p1, r3⟩ := pr
        rw [h3] at h
        simp only [Except.ok.injEq, Prod.mk.injEq] at h
        obtain ⟨e1, e2, e3⟩ := h
        subst e1 e2 e3
        exact ⟨scanfUintStep_ok_lt _ 32 _ _ _ (Or.inl rfl) h1,
          scanfUintStep_ok_lt _ 32 _ _ _ (Or.inl rfl) h2,
          scanfUintStep_ok_lt _ 8 _ _ _ (Or.inr rfl) h3⟩

theorem SscanfParams_ok_lt (f : List Char) (m t p : Nat) (h : SscanfParams f = .ok (m, t, p)) :
    m < 2 ^ 32 ∧ t < 2 ^ 32 ∧ p < 2 ^ 8 :=
  doScanfParams_ok_lt (f.take hugeWid) m t p h

theorem decodeHash_ok_inRange (hashed : List Char) (p : params) (salt key : List Byte)
    (h : decodeHash hashed = .ok (p, salt, key)) : p.inRange := by
  obtain ⟨c0, c1, c2, c3, c4, c5, _, hf⟩ := decodeHash_ok_fields hashed _ h
  obtain ⟨_, hp, _, _, hs, hk⟩ := decodeFields_ok c2 c3 c4 c5 p salt key hf
  obtain ⟨hm, ht, hpar⟩ := SscanfParams_ok_lt c3 _ _ _ hp
  refine ⟨hm, ht, hpar, ?_, ?_⟩
  · rw [hs]; exact Nat.mod_lt _ (by norm_num)
  · rw [hk]; exact Nat.mod_lt _ (by norm_num)

theorem decodeHash_ok_lengths (hashed : List Char) (p : params) (salt key : List Byte)
    (h : decodeHash hashed = .ok (p, salt, key)) :
    p.saltLength = salt.length % 2 ^ 32 ∧ p.keyLength = key.length % 2 ^ 32 := by
  obtain ⟨c0, c1, c2, c3, c4, c5, _, hf⟩ := decodeHash_ok_fields hashed _ h
  obtain ⟨_, _, _, _, hs, hk⟩ := decodeFields_ok c2 c3 c4 c5 p salt key hf
  exact ⟨hs, hk⟩

theorem decodeHash_reencode (hashed : List Char) (p : params) (salt key : List Byte)
    (h : decodeHash hashed = .ok (p, salt, key)) :
    decodeHash (Sprintf argon2Version p.memory p.iterations p.parallelism
      (EncodeToString salt) (EncodeToString key)) = .ok (p, salt, key) := by
  obtain ⟨hm, ht, hp, _, _⟩ := decodeHash_ok_inRange hashed p salt key h
  obtain ⟨hs, hk⟩ := decodeHash_ok_lengths hashed p salt key h
  rw [decodeHash_Sprintf p.memory p.iterations p.parallelism salt key hm ht hp, ← hs, ← hk]

/-! ## Lemmas: the errors of `decodeHash` -/

theorem SkipSpace_error (s : List Char) (e : GoError) (h : SkipSpace s = .error e) :
    e.isScanError = true := by
  have sp := SkipSpace_spec s
  by_cases hnl : (s.dropWhile isBlank).head? = some '\n'
  · rw [sp.1 hnl] at h
    cases h
    rfl
  · rw [sp.2 hnl] at h
    cases h

theorem scanNumber_error (buf r : List Char) (e : GoError) (h : scanNumber buf r = .error e) :
    e.isScanError = true := by
  cases r with
  | nil =>
    simp only [scanNumber] at h
    cases h
    rfl
  | cons c t =>
    simp only [scanNumber] at h
    split at h
    · cases h
    · cases h
      rfl

theorem ParseUintLoop_error (s0 cs : List Char) : ∀ (n : Nat) (e : GoError),
    ParseUintLoop s0 cs n = .error e → e.isScanError = true := by
  induction cs with
  | nil => intro n e h; simp only [ParseUintLoop] at h; cases h
  | cons c t ih =>
    intro n e h
    simp only [ParseUintLoop] at h
    split at h
    · split at h
      · cases h; rfl
      · split at h
        · cases h; rfl
        · exact ih _ e h
    · cases h; rfl

theorem ParseUint_error (s : List Char) (e : GoError) (h : ParseUint s = .error e) :
    e.isScanError = true := by
  cases s with
  | nil => simp only [ParseUint] at h; cases h; rfl
  | cons c t => exact ParseUintLoop_error _ _ 0 e h

theorem ParseInt_error (s0 : List Char) (e : GoError) (h : ParseInt s0 = .error e) :
    e.isScanError = true := by
  cases s0 with
  | nil => simp only [ParseInt] at h; cases h; rfl
  | cons c t =>
    simp only [ParseInt] at h
    split at h
    · cases h; rfl
    · cases h; rfl
    · split at h
      · cases h; rfl
      · split at h
        · cases h; rfl
        · cases h

theorem scanInt_error (input : List Char) (e : GoError) (h : scanInt input = .error e) :
    e.isScanError = true := by
  unfold scanInt at h
  split at h
  · rename_i e1 hs
    cases h
    exact SkipSpace_error _ _ hs
  · cases h; rfl
  · split at h
    · rename_i e1 hs
      cases h
      exact scanNumber_error _ _ _ hs
    · split at h
      · rename_i e1 hs
        cases h
        exact ParseInt_error _ _ hs
      · cases h

theorem scanUint_error (bitSize : Nat) (input : List Char) (e : GoError)
    (h : scanUint bitSize input = .error e) : e.isScanError = true := by
  unfold scanUint at h
  split at h
  · rename_i e1 hs
    cases h
    exact SkipSpace_error _ _ hs
  · cases h; rfl
  · split at h
    · rename_i e1 hs
      cases h
      exact scanNumber_error _ _ _ hs
    · split at h
      · rename_i e1 hs
        cases h
        exact ParseUint_error _ _ hs
      · split at h
        · cases h; rfl
        · cases h

theorem advance_error (lit f : List Char) (e : GoError) (h : advance lit f = .error e) :
    e.isScanError = true := by
  rcases advance_spec lit f with ⟨_, ha⟩ | ⟨_, e1, ha, he⟩
  · rw [ha] at h; cases h
  · rw [ha] at h; cases h; exact he

theorem scanfUintStep_error (lit : List Char) (bitSize : Nat) (f : List Char) (e : GoError)
    (h : scanfUintStep lit bitSize f = .error e) : e.isScanError = true := by
  unfold scanfUintStep at h
  split at h
  · rename_i e1 hs
    cases h
    exact advance_error _ _ _ hs
  · split at h
    · rename_i e1 hs
      cases h
      exact SkipSpace_error _ _ hs
    · exact scanUint_error _ _ _ h

theorem doScanfVersion_error (f : List Char) (e : GoError) (h : doScanfVersion f = .error e) :
    e.isScanError = true := by
  unfold doScanfVersion at h
  split at h
  · rename_i e1 hs
    cases h
    exact advance_error _ _ _ hs
  · split at h
    · rename_i e1 hs
      cases h
      exact SkipSpace_error _ _ hs
    · split at h
      · rename_i e1 hs
        cases h
        exact scanInt_error _ _ hs
      · cases h

theorem SscanfVersion_error (f : List Char) (e : GoError) (h : SscanfVersion f = .error e) :
    e.isScanError = true :=
  doScanfVersion_error (f.take hugeWid) e h

theorem doScanfParams_error (f : List Char) (e : GoError) (h : doScanfParams f = .error e) :
    e.isScanError = true := by
  unfold doScanfParams at h
  split at h
  · rename_i e1 hs
    cases h
    exact scanfUintStep_error _ _ _ _ hs
  · split at h
    · rename_i e1 hs
      cases h
      exact scanfUintStep_error _ _ _ _ hs
    · split at h
      · rename_i e1 hs
        cases h
        exact scanfUintStep_error _ _ _ _ hs
      · cases h

theorem SscanfParams_error (f : List Char) (e : GoError) (h : SscanfParams f = .error e) :
    e.isScanError = true :=
  doScanfParams_error (f.take hugeWid) e h

theorem DecodeString_error (s : List Char) (e : GoError) (h : DecodeString s = .error e) :
    ∃ offset, e = .CorruptInputError offset := by
  rcases decodeLoop_ok_or_corrupt s 0 [] with ⟨out, ho⟩ | ⟨off, ho⟩
  · simp only [DecodeString] at h
    rw [ho] at h; cases h
  · simp only [DecodeString] at h
    rw [ho] at h; cases h
    exact ⟨off, rfl⟩

theorem decodeFields_error (c2 c3 c4 c5 : List Char) (e : GoError)
    (h : decodeFields c2 c3 c4 c5 = .error e) :
    e = .ErrIncompatibleVersion ∨ e.isScanError = true ∨ ∃ offset, e = .CorruptInputError offset := by
  unfold decodeFields at h
  split at h
  · rename_i e1 hs
    cases h
    exact Or.inr (Or.inl (SscanfVersion_error _ _ hs))
  · split at h
    · cases h; exact Or.inl rfl
    · split at h
      · rename_i e1 hs
        cases h
        exact Or.inr (Or.inl (SscanfParams_error _ _ hs))
      · split at h
        · rename_i e1 hs
          cases h
          exact Or.inr (Or.inr (DecodeString_error _ _ hs))
        · split at h
          · rename_i e1 hs
            cases h
            exact Or.inr (Or.inr (DecodeString_error _ _ hs))
          · cases h

theorem decodeHash_error (hashed : List Char) (e : GoError) (h : decodeHash hashed = .error e) :
    e = .ErrInvalidHash ∨ e = .ErrIncompatibleVersion ∨ e.isScanError = true ∨
      ∃ offset, e = .CorruptInputError offset := by
  by_cases h6 : (Split hashed '$').length = 6
  · obtain ⟨c0, c1, c2, c3, c4, c5, _, hd⟩ := decodeHash_six hashed h6
    rw [hd] at h
    exact Or.inr (decodeFields_error c2 c3 c4 c5 e h)
  · rw [decodeHash_field_count_ne hashed h6] at h
    cases h
    exact Or.inl rfl

/-! ## Lemmas: decoding base64 text and encoding it again -/

theorem encodeChar_decodeMap (c : Char) (h : c ∈ encodeStd) : encodeChar (decodeMap c) = c := by
  revert c
  decide

theorem decodeMap_lt (c : Char) (h : c ∈ encodeStd) : decodeMap c < 64 := by
  revert c
  decide

theorem mem_encodeStd_ne_dollar (c : Char) (h : c ∈ encodeStd) : c ≠ '$' := by
  revert c
  decide

theorem encodeChar_mem (i : Nat) : encodeChar i ∈ encodeStd := by
  by_cases h : i < 64
  · have hall : ∀ j, j < 64 → encodeChar j ∈ encodeStd := by decide
    exact hall i h
  · have : encodeStd.length ≤ i := by
      have : encodeStd.length = 64 := by decide
      omega
    have hA : 'A' ∈ encodeStd := by decide
    simpa [encodeChar, List.getD, List.getElem?_eq_none this] using hA

theorem EncodeToString_mem (bs : List Byte) : ∀ c ∈ EncodeToString bs, c ∈ encodeStd := by
  induction bs using EncodeToString.induct with
  | case1 => simp [EncodeToString]
  | case2 b0 => simp [EncodeToString, encodeChar_mem]
  | case3 b0 b1 => simp [EncodeToString, encodeChar_mem]
  | case4 b0 b1 b2 rest ih =>
    intro c hc
    simp only [EncodeToString, List.mem_cons] at hc
    rcases hc with h | h | h | h | h
    · rw [h]; exact encodeChar_mem _
    · rw [h]; exact encodeChar_mem _
    · rw [h]; exact encodeChar_mem _
    · rw [h]; exact encodeChar_mem _
    · exact ih c h

theorem EncodeToString_length (bs : List Byte) :
    (EncodeToString bs).length = (4 * bs.length + 2) / 3 := by
  induction bs using EncodeToString.induct with
  | case1 => simp [EncodeToString]
  | case2 b0 => simp [EncodeToString]
  | case3 b0 b1 => simp [EncodeToString]
  | case4 b0 b1 b2 rest ih =>
    simp only [EncodeToString, List.length_cons, ih]
    omega

theorem byte_val_ofNat (n : Nat) : ((Fin.ofNat n : Byte)).val = n % 256 := rfl

theorem EncodeToString_quantum4 (a b c d : Nat) (ha : a < 64) (hb : b < 64) (hc : c < 64)
    (hd : d < 64) (rest : List Byte) :
    EncodeToString (quantumBytes [a, b, c, d] ++ rest) =
      encodeChar a :: encodeChar b :: encodeChar c :: encodeChar d :: EncodeToString rest := by
  simp only [quantumBytes, List.getD_cons_zero, List.getD_cons_succ, List.length_cons,
    List.length_nil, pack4 a b c d hb hc hd]
  simp only [List.take, Nat.zero_add, Nat.reduceAdd, Nat.reduceSub, List.cons_append,
    List.nil_append, EncodeToString, byte_val_ofNat, and63]
  rw [pack3 _ _ _ (Nat.mod_lt _ (by norm_num)) (Nat.mod_lt _ (by norm_num))]
  have e1 : (((a * 262144 + b * 4096 + c * 64 + d) >>> 16 % 256 * 65536 +
      (a * 262144 + b * 4096 + c * 64 + d) >>> 8 % 256 * 256 +
      (a * 262144 + b * 4096 + c * 64 + d) >>> 0 % 256) >>> 18) % 64 = a := by omega
  have e2 : (((a * 262144 + b * 4096 + c * 64 + d) >>> 16 % 256 * 65536 +
      (a * 262144 + b * 4096 + c * 64 + d) >>> 8 % 256 * 256 +
      (a * 262144 + b * 4096 + c * 64 + d) >>> 0 % 256) >>> 12) % 64 = b := by omega
  have e3 : (((a * 262144 + b * 4096 + c * 64 + d) >>> 16 % 256 * 65536 +
      (a * 262144 + b * 4096 + c * 64 + d) >>> 8 % 256 * 256 +
      (a * 262144 + b * 4096 + c * 64 + d) >>> 0 % 256) >>> 6) % 64 = c := by omega
  have e4 : (((a * 262144 + b * 4096 + c * 64 + d) >>> 16 % 256 * 65536 +
      (a * 262144 + b * 4096 + c * 64 + d) >>> 8 % 256 * 256 +
      (a * 262144 + b * 4096 + c * 64 + d) >>> 0 % 256)) % 64 = d := by omega
  rw [e1, e2, e3, e4]
  rfl

theorem pack2 (a b : Nat) (hb : b < 256) : a <<< 16 ||| b <<< 8 = a * 65536 + b * 256 := by
  have := pack3 a b 0 hb (by norm_num)
  simpa using this

theorem EncodeToString_quantum3 (a b c : Nat) (ha : a < 64) (hb : b < 64) (hc : c < 64) :
    EncodeToString (quantumBytes [a, b, c]) =
      [encodeChar a, encodeChar b, encodeChar (c / 4 * 4)] := by
  simp only [quantumBytes, List.getD_cons_zero, List.getD_cons_succ, List.getD_nil,
    List.length_cons, List.length_nil, pack4 a b c 0 hb hc (by norm_num)]
  simp only [List.take, Nat.zero_add, Nat.reduceAdd, Nat.reduceSub, EncodeToString,
    byte_val_ofNat, and63]
  rw [pack2 _ _ (Nat.mod_lt _ (by norm_num))]
  have e1 : ((a * 262144 + b * 4096 + c * 64 + 0) >>> 16 % 256 * 65536 +
      (a * 262144 + b * 4096 + c * 64 + 0) >>> 8 % 256 * 256) >>> 18 % 64 = a := by omega
  have e2 : ((a * 262144 + b * 4096 + c * 64 + 0) >>> 16 % 256 * 65536 +
      (a * 262144 + b * 4096 + c * 64 + 0) >>> 8 % 256 * 256) >>> 12 % 64 = b := by omega
  have e3 : ((a * 262144 + b * 4096 + c * 64 + 0) >>> 16 % 256 * 65536 +
      (a * 262144 + b * 4096 + c * 64 + 0) >>> 8 % 256 * 256) >>> 6 % 64 = c / 4 * 4 := by
    omega
  rw [e1, e2, e3]

theorem EncodeToString_quantum2 (a b : Nat) (ha : a < 64) (hb : b < 64) :
    EncodeToString (quantumBytes [a, b]) = [encodeChar a, encodeChar (b / 16 * 16)] := by
  simp only [quantumBytes, List.getD_cons_zero, List.getD_cons_succ, List.getD_nil,
    List.length_cons, List.length_nil, pack4 a b 0 0 hb (by norm_num) (by norm_num)]
  simp only [List.take, Nat.zero_add, Nat.reduceAdd, Nat.reduceSub, EncodeToString,
    byte_val_ofNat, and63]
  have e1 : ((a * 262144 + b * 4096 + 0 * 64 + 0) >>> 16 % 256) <<< 16 >>> 18 % 64 = a := by
    omega
  have e2 : ((a * 262144 + b * 4096 + 0 * 64 + 0) >>> 16 % 256) <<< 16 >>> 12 % 64 =
      b / 16 * 16 := by omega
  rw [e1, e2]

theorem rawStdCanonical_length (s : List Char) : (rawStdCanonical s).length = s.length := by
  induction s using rawStdCanonical.induct with
  | case1 => rfl
  | case2 a => rfl
  | case3 a b => rfl
  | case4 a b c => rfl
  | case5 a b c d rest ih => simp only [rawStdCanonical, List.length_cons, ih]

theorem rawStdCanonical_getElem (s : List Char) : ∀ i, i + 1 < s.length →
    (rawStdCanonical s)[i]? = s[i]? := by
  induction s using rawStdCanonical.induct with
  | case1 => intro i h; simp at h
  | case2 a => intro i h; rfl
  | case3 a b =>
    intro i h
    simp only [List.length_cons, List.length_nil] at h
    have : i = 0 := by omega
    subst this
    rfl
  | case4 a b c =>
    intro i h
    simp only [List.length_cons, List.length_nil] at h
    have : i = 0 ∨ i = 1 := by omega
    rcases this with e | e <;> subst e <;> rfl
  | case5 a b c d rest ih =>
    intro i h
    simp only [List.length_cons] at h
    match i with
    | 0 => simp only [rawStdCanonical, List.getElem?_cons_zero]
    | 1 => simp only [rawStdCanonical, List.getElem?_cons_succ, List.getElem?_cons_zero]
    | 2 => simp only [rawStdCanonical, List.getElem?_cons_succ, List.getElem?_cons_zero]
    | 3 => simp only [rawStdCanonical, List.getElem?_cons_succ, List.getElem?_cons_zero]
    | j + 4 =>
      simp only [rawStdCanonical, List.getElem?_cons_succ]
      exact ih j (by omega)

theorem rawStdCanonical_last (s : List Char) : ∀ i z, s.length % 4 = 3 → i + 1 = s.length →
    s[i]? = some z → (rawStdCanonical s)[i]? = some (encodeChar (decodeMap z / 4 * 4)) := by
  induction s using rawStdCanonical.induct with
  | case1 => intro i z h; simp at h
  | case2 a => intro i z h; simp at h
  | case3 a b => intro i z h; simp at h
  | case4 a b c =>
    intro i z _ hi hz
    simp only [List.length_cons, List.length_nil] at hi
    have : i = 2 := by omega
    subst this
    simp only [List.getElem?_cons_succ, List.getElem?_cons_zero, Option.some.injEq] at hz
    subst hz
    rfl
  | case5 a b c d rest ih =>
    intro i z hm hi hz
    simp only [List.length_cons] at hm hi
    match i, hi, hz with
    | j + 4, hi, hz =>
      simp only [List.getElem?_cons_succ] at hz
      simp only [rawStdCanonical, List.getElem?_cons_succ]
      exact ih j z (by omega) (by omega) hz
    | 0, hi, _ => omega
    | 1, hi, _ => omega
    | 2, hi, _ => omega
    | 3, hi, _ => omega

theorem decodeLoop_reencode (s : List Char) : ∀ si, (∀ c ∈ s, c ∈ encodeStd) →
    s.length % 4 ≠ 1 →
    ∃ k, decodeLoop s si [] = .ok k ∧ EncodeToString k = rawStdCanonical s := by
  induction s using rawStdCanonical.induct with
  | case1 => intro si _ _; exact ⟨[], by simp [decodeLoop], rfl⟩
  | case2 a => intro si _ h; simp at h
  | case3 a b =>
    intro si hm _
    have ha := hm a (by simp)
    have hb := hm b (by simp)
    have na := (decodeMap_ne_ff a).mpr (by simpa using ha)
    have nb := (decodeMap_ne_ff b).mpr (by simpa using hb)
    refine ⟨quantumBytes [decodeMap a, decodeMap b], ?_, ?_⟩
    · simp [decodeLoop, na, nb]
    · rw [EncodeToString_quantum2 _ _ (decodeMap_lt a ha) (decodeMap_lt b hb),
        encodeChar_decodeMap a ha]
      rfl
  | case4 a b c =>
    intro si hm _
    have ha := hm a (by simp)
    have hb := hm b (by simp)
    have hc := hm c (by simp)
    have na := (decodeMap_ne_ff a).mpr (by simpa using ha)
    have nb := (decodeMap_ne_ff b).mpr (by simpa using hb)
    have nc := (decodeMap_ne_ff c).mpr (by simpa using hc)
    refine ⟨quantumBytes [decodeMap a, decodeMap b, decodeMap c], ?_, ?_⟩
    · simp [decodeLoop, na, nb, nc]
    · rw [EncodeToString_quantum3 _ _ _ (decodeMap_lt a ha) (decodeMap_lt b hb)
        (decodeMap_lt c hc), encodeChar_decodeMap a ha, encodeChar_decodeMap b hb]
      rfl
  | case5 a b c d rest ih =>
    intro si hm hl
    have ha := hm a (by simp)
    have hb := hm b (by simp)
    have hc := hm c (by simp)
    have hd := hm d (by simp)
    have na := (decodeMap_ne_ff a).mpr (by simpa using ha)
    have nb := (decodeMap_ne_ff b).mpr (by simpa using hb)
    have nc := (decodeMap_ne_ff c).mpr (by simpa using hc)
    have nd := (decodeMap_ne_ff d).mpr (by simpa using hd)
    obtain ⟨k, hk, hek⟩ := ih (si + 1 + 1 + 1 + 1)
      (fun x hx => hm x (by simp [hx]))
      (by simp only [List.length_cons] at hl; omega)
    refine ⟨quantumBytes [decodeMap a, decodeMap b, decodeMap c, decodeMap d] ++ k, ?_, ?_⟩
    · simp [decodeLoop, na, nb, nc, nd, hk]
    · rw [EncodeToString_quantum4 _ _ _ _ (decodeMap_lt a ha) (decodeMap_lt b hb)
        (decodeMap_lt c hc) (decodeMap_lt d hd), encodeChar_decodeMap a ha,
        encodeChar_decodeMap b hb, encodeChar_decodeMap c hc, encodeChar_decodeMap d hd, hek]
      rfl

/-! ## Lemmas: a changed character in the key field -/

theorem Sprintf_default (salt hash : List Char) :
    Sprintf argon2Version hashParam.memory hashParam.iterations hashParam.parallelism salt hash =
      "$argon2id$v=19$m=65536,t=3,p=2$".toList ++ salt ++ "$".toList ++ hash := by
  have e1 : fmtInt argon2Version = "19".toList := by decide
  have e2 : fmtUint hashParam.memory = "65536".toList := by decide
  have e3 : fmtUint hashParam.iterations = "3".toList := by decide
  have e4 : fmtUint hashParam.parallelism = "2".toList := by decide
  simp only [Sprintf, e1, e2, e3, e4]
  simp

theorem decodeHash_Sprintf_text (m t p : Nat) (saltText keyText : List Char)
    (salt key : List Byte) (hm : m < 2 ^ 32) (ht : t < 2 ^ 32) (hp : p < 2 ^ 8)
    (hs : ∀ c ∈ saltText, c ≠ '$') (hk : ∀ c ∈ keyText, c ≠ '$')
    (hds : DecodeString saltText = .ok salt) (hdk : DecodeString keyText = .ok key) :
    decodeHash (Sprintf argon2Version m t p saltText keyText) =
      .ok ({ memory := m, iterations := t, parallelism := p,
             saltLength := salt.length % 2 ^ 32, keyLength := key.length % 2 ^ 32 },
           salt, key) := by
  have hsplit := Split_Sprintf m t p saltText keyText hs hk
  have hver : SscanfVersion "v=19".toList = .ok argon2Version := by rfl
  have hpar := SscanfParams_fmt m t p hm ht hp
  rw [decodeHash_fields _ _ _ _ _ _ _ hsplit]
  simp only [decodeFields, hver, hpar, hds, hdk]
  simp

theorem getElem?_append_cons (pre post : List Char) (x : Char) :
    (pre ++ x :: post)[pre.length]? = some x := by
  induction pre with
  | nil => simp
  | cons a t ih => simpa using ih

theorem changed_key_decodes (key : List Byte) (pre post : List Char) (c c2 : Char)
    (hlen : key.length = 32) (hE : EncodeToString key = pre ++ c :: post)
    (hc2 : c2 ∈ encodeStd) (hne : c2 ≠ c)
    (hbits : post = [] → decodeMap c2 / 4 ≠ decodeMap c / 4) :
    (∀ x ∈ pre ++ c2 :: post, x ≠ '$') ∧
    ∃ k, DecodeString (pre ++ c2 :: post) = .ok k ∧ k.length = 32 ∧ k ≠ key := by
  have hmemE : ∀ x ∈ pre ++ c :: post, x ∈ encodeStd := by
    intro x hx
    rw [← hE] at hx
    exact EncodeToString_mem key x hx
  have hmem : ∀ x ∈ pre ++ c2 :: post, x ∈ encodeStd := by
    intro x hx
    rcases List.mem_append.mp hx with h | h
    · exact hmemE x (List.mem_append_left _ h)
    · rcases List.mem_cons.mp h with h | h
      · rw [h]; exact hc2
      · exact hmemE x (List.mem_append_right _ (List.mem_cons_of_mem _ h))
  have hlenE : (pre ++ c :: post).length = 43 := by
    rw [← hE, EncodeToString_length, hlen]
  have hlen2 : (pre ++ c2 :: post).length = 43 := by
    simp only [List.length_append, List.length_cons] at hlenE ⊢
    exact hlenE
  refine ⟨fun x hx => mem_encodeStd_ne_dollar x (hmem x hx), ?_⟩
  obtain ⟨k, hk, hek⟩ := decodeLoop_reencode (pre ++ c2 :: post) 0 hmem (by omega)
  refine ⟨k, hk, ?_, ?_⟩
  · have hl := congrArg List.length hek
    rw [EncodeToString_length, rawStdCanonical_length, hlen2] at hl
    omega
  · intro heq
    subst heq
    rw [hE] at hek
    have hidx := getElem?_append_cons pre post c
    have hidx2 := getElem?_append_cons pre post c2
    by_cases hp : post = []
    · have hlast := rawStdCanonical_last (pre ++ c2 :: post) pre.length c2
        (by rw [hlen2]) (by simp [hp]) hidx2
      rw [← hek, hidx] at hlast
      have hc : c = encodeChar (decodeMap c2 / 4 * 4) := by
        simpa using hlast
      have hlt := decodeMap_lt c2 hc2
      have hd : decodeMap c = decodeMap c2 / 4 * 4 := by
        rw [hc]
        exact decodeMap_encodeChar _ (by omega)
      exact hbits hp (by omega)
    · have hpos : 0 < post.length := List.length_pos.mpr hp
      have hget := rawStdCanonical_getElem (pre ++ c2 :: post) pre.length
        (by simp only [List.length_append, List.length_cons]; omega)
      rw [← hek, hidx, hidx2] at hget
      exact hne (by simpa using hget.symm)

theorem decodeHash_limit (n : Nat) (hn : n + 11 = hugeWid) :
    decodeHash ("$argon2id$v=19$m=1,t=1,p=".toList ++ List.replicate n '0' ++
        "1999$AAAA$AAAA".toList) = .ok (⟨1, 1, 1, 3, 3⟩, [0, 0, 0], [0, 0, 0]) := by
  have e : "$argon2id$v=19$m=1,t=1,p=".toList ++ List.replicate n '0' ++
        "1999$AAAA$AAAA".toList =
      [] ++ '$' :: ("argon2id".toList ++ '$' :: ("v=19".toList ++ '$' ::
        (("m=1,t=1,p=".toList ++ (List.replicate n '0' ++ ('1' :: "999".toList)))
          ++ '$' :: ("AAAA".toList ++ '$' :: "AAAA".toList)))) := by
    simp
  have hpar : ∀ c ∈ "m=1,t=1,p=".toList ++ (List.replicate n '0' ++ ('1' :: "999".toList)),
      c ≠ '$' := by
    intro c hc
    rw [List.mem_append, List.mem_append] at hc
    rcases hc with hc | hc | hc
    · revert c; decide
    · rw [(List.mem_replicate.mp hc).2]
      decide
    · revert c; decide
  have hs : Split ("$argon2id$v=19$m=1,t=1,p=".toList ++ List.replicate n '0' ++
      "1999$AAAA$AAAA".toList) '$' =
      [[], "argon2id".toList, "v=19".toList,
        "m=1,t=1,p=".toList ++ (List.replicate n '0' ++ ('1' :: "999".toList)),
        "AAAA".toList, "AAAA".toList] := by
    rw [e, Split_append_sep _ _ _ (by simp), Split_append_sep _ _ _ (by decide),
      Split_append_sep _ _ _ (by decide), Split_append_sep _ _ _ hpar,
      Split_append_sep _ _ _ (by decide), Split_no_sep _ _ (by decide)]
  have hv : SscanfVersion "v=19".toList = .ok argon2Version := rfl
  have hb : DecodeString "AAAA".toList = .ok [0, 0, 0] := rfl
  rw [decodeHash_fields _ _ _ _ _ _ _ hs]
  simp only [decodeFields, hv, SscanfParams_limit n hn "999".toList, hb, ne_eq,
    not_true_eq_false, if_false]
  rfl

/-! ## The claims -/

/-- C1: for every plaintext `P` and every salt returned by the random source
for the configured salt length, with a key-derivation function that returns
the requested number of key bytes at this call, `Run` returns no error and
`Verify(P, Run(P))` returns `match = true` with no error.  (The function
`IDKey` is a Lean function, hence deterministic; the length of the salt is not
needed.) -/
theorem Verify_Run_true (IDKey : KDF) (randRead : RandSource) (P : List Char)
    (salt : List Byte) (hrand : randRead hashParam.saltLength = .ok salt)
    (hlen : (IDKey (stringBytes P) salt hashParam.iterations hashParam.memory
      hashParam.parallelism hashParam.keyLength).length = hashParam.keyLength) :
    (Run IDKey randRead P).2 = none ∧
      Verify IDKey P (Run IDKey randRead P).1 = (true, none) := by
  refine ⟨by rw [Run_ok IDKey randRead P salt hrand], ?_⟩
  rw [Verify_Run_eq IDKey randRead P P salt hrand hlen]
  simp

/-- Witness of C1: the sample key-derivation function and random source on the
password of the tests. -/
theorem Verify_Run_true_witness :
    (fixedRand 7 hashParam.saltLength = .ok (List.replicate 16 7) ∧
      (lengthKDF (stringBytes "strongP@S$w0rd".toList) (List.replicate 16 7)
        hashParam.iterations hashParam.memory hashParam.parallelism
        hashParam.keyLength).length = hashParam.keyLength) ∧
    ((Run lengthKDF (fixedRand 7) "strongP@S$w0rd".toList).2 = none ∧
      Verify lengthKDF "strongP@S$w0rd".toList
        (Run lengthKDF (fixedRand 7) "strongP@S$w0rd".toList).1 = (true, none)) :=
  ⟨⟨rfl, by simp [lengthKDF, hashParam]⟩,
    Verify_Run_true lengthKDF (fixedRand 7) "strongP@S$w0rd".toList (List.replicate 16 7) rfl
      (by simp [lengthKDF, hashParam])⟩

/-- Counterexample to C2: no key derivation is free of false positives.  For
every key-derivation function that returns the 32 requested bytes under the
parameters of `hashParam` (as `argon2.IDKey` does), every random source and
every salt it returns, it is not the case that `Verify(Q, Run(P))` differs
from `(true, nil)` for all different plaintexts `P` and `Q`, not even for those
of 257 characters: there are more such plaintexts (`2^257` of the characters
`0` and `1` alone) than keys of 32 bytes (`2^256`), so two of them have the
same key, and `Verify` compares keys only. -/
theorem Verify_Run_collision :
    ¬ ∃ (IDKey : KDF) (randRead : RandSource) (salt : List Byte),
      randRead hashParam.saltLength = .ok salt ∧
      (∀ P : List Char, (IDKey (stringBytes P) salt hashParam.iterations hashParam.memory
        hashParam.parallelism hashParam.keyLength).length = hashParam.keyLength) ∧
      ∀ P Q : List Char, P.length = 257 → Q.length = 257 → P ≠ Q →
        Verify IDKey Q (Run IDKey randRead P).1 ≠ (true, none) := by
  rintro ⟨IDKey, randRead, salt, hrand, hlen, hall⟩
  let g : Mathlib.Vector Bool 257 → Mathlib.Vector Byte 32 := fun v =>
    ⟨IDKey (stringBytes (v.1.map bitChar)) salt hashParam.iterations hashParam.memory
      hashParam.parallelism hashParam.keyLength, hlen _⟩
  have hcard : Fintype.card (Mathlib.Vector Byte 32) <
      Fintype.card (Mathlib.Vector Bool 257) := by
    rw [card_vector, card_vector, Fintype.card_bool, Fintype.card_fin]
    norm_num
  obtain ⟨v, w, hvw, hg⟩ := Fintype.exists_ne_map_eq_of_card_lt g hcard
  have hkey : IDKey (stringBytes (v.1.map bitChar)) salt hashParam.iterations
      hashParam.memory hashParam.parallelism hashParam.keyLength =
    IDKey (stringBytes (w.1.map bitChar)) salt hashParam.iterations
      hashParam.memory hashParam.parallelism hashParam.keyLength :=
    congrArg Subtype.val hg
  have hne : v.1.map bitChar ≠ w.1.map bitChar := by
    intro h
    exact hvw (Subtype.ext (List.map_injective_iff.mpr bitChar_injective h))
  refine hall (v.1.map bitChar) (w.1.map bitChar) (by rw [List.length_map, v.2])
    (by rw [List.length_map, w.2]) hne ?_
  rw [Verify_Run_eq IDKey randRead _ _ salt hrand (hlen _), hkey]
  simp

/-- C2, amended: for all plaintexts `P` and `Q` and every salt returned by the
random source, if the key-derivation function returns the requested number of
bytes for `P` and derives for `Q`, under the same salt and the parameters of
`hashParam`, a key different from the one for `P`, then `Run(P)` returns no
error and `Verify(Q, Run(P))` returns `match = false` with no error.  That
`P` and `Q` differ does not suffice: the two keys must differ. -/
theorem Verify_Run_false (IDKey : KDF) (randRead : RandSource) (P Q : List Char)
    (salt : List Byte) (hrand : randRead hashParam.saltLength = .ok salt)
    (hlen : (IDKey (stringBytes P) salt hashParam.iterations hashParam.memory
      hashParam.parallelism hashParam.keyLength).length = hashParam.keyLength)
    (hne : IDKey (stringBytes Q) salt hashParam.iterations hashParam.memory
        hashParam.parallelism hashParam.keyLength ≠
      IDKey (stringBytes P) salt hashParam.iterations hashParam.memory
        hashParam.parallelism hashParam.keyLength) :
    (Run IDKey randRead P).2 = none ∧
      Verify IDKey Q (Run IDKey randRead P).1 = (false, none) := by
  refine ⟨by rw [Run_ok IDKey randRead P salt hrand], ?_⟩
  rw [Verify_Run_eq IDKey randRead P Q salt hrand hlen]
  have hne2 := Ne.symm hne
  simp [hne2]

/-- Witness of C2, amended: the two passwords of `TestVerifyFalse` under the
sample function `lengthKDF`, whose keys differ with the password length. -/
theorem Verify_Run_false_witness :
    (fixedRand 7 hashParam.saltLength = .ok (List.replicate 16 7) ∧
      (lengthKDF (stringBytes "strongP@S$w0rd".toList) (List.replicate 16 7)
        hashParam.iterations hashParam.memory hashParam.parallelism
        hashParam.keyLength).length = hashParam.keyLength ∧
      lengthKDF (stringBytes "strongP@S$w0rd1".toList) (List.replicate 16 7)
          hashParam.iterations hashParam.memory hashParam.parallelism hashParam.keyLength ≠
        lengthKDF (stringBytes "strongP@S$w0rd".toList) (List.replicate 16 7)
          hashParam.iterations hashParam.memory hashParam.parallelism hashParam.keyLength) ∧
    ((Run lengthKDF (fixedRand 7) "strongP@S$w0rd".toList).2 = none ∧
      Verify lengthKDF "strongP@S$w0rd1".toList
        (Run lengthKDF (fixedRand 7) "strongP@S$w0rd".toList).1 = (false, none)) :=
  ⟨⟨rfl, by simp [lengthKDF, hashParam], by decide⟩,
    Verify_Run_false lengthKDF (fixedRand 7) "strongP@S$w0rd".toList "strongP@S$w0rd1".toList
      (List.replicate 16 7) rfl (by simp [lengthKDF, hashParam]) (by decide)⟩

/-- C3: round trip.  For the supported version, every `params` value whose
fields fit their Go types, and every salt and key whose lengths are the
`saltLength` and `keyLength` of the value, `decodeHash` applied to the string
built by the format of `Run` succeeds and returns exactly that value, salt and
key.  (Positivity of the fields is not needed.) -/
theorem decodeHash_roundTrip (p : params) (salt key : List Byte) (hr : p.inRange)
    (hs : salt.length = p.saltLength) (hk : key.length = p.keyLength) :
    decodeHash (Sprintf argon2Version p.memory p.iterations p.parallelism
      (EncodeToString salt) (EncodeToString key)) = .ok (p, salt, key) := by
  obtain ⟨hm, ht, hp, hsl, hkl⟩ := hr
  rw [decodeHash_Sprintf p.memory p.iterations p.parallelism salt key hm ht hp, hs, hk,
    Nat.mod_eq_of_lt hsl, Nat.mod_eq_of_lt hkl]

/-- Witness of C3: parameters other than the defaults, a 2-byte salt and a
4-byte key. -/
theorem decodeHash_roundTrip_witness :
    ((⟨4096, 1, 255, 2, 4⟩ : params).inRange ∧ ([250, 3] : List Byte).length = 2 ∧
      ([1, 2, 3, 255] : List Byte).length = 4) ∧
    decodeHash (Sprintf argon2Version 4096 1 255 (EncodeToString [250, 3])
      (EncodeToString [1, 2, 3, 255])) = .ok (⟨4096, 1, 255, 2, 4⟩, [250, 3], [1, 2, 3, 255]) :=
  ⟨⟨by decide, rfl, rfl⟩,
    decodeHash_roundTrip ⟨4096, 1, 255, 2, 4⟩ [250, 3] [1, 2, 3, 255] (by decide) rfl rfl⟩

/-- C4: every input string (the empty string included) that does not split on
`$` into exactly 6 fields makes `decodeHash` fail with `ErrInvalidHash`; no
parameters, salt or key are returned. -/
theorem decodeHash_field_count (hashed : List Char) (h : (Split hashed '$').length ≠ 6) :
    decodeHash hashed = .error .ErrInvalidHash := by
  simp only [decodeHash, h, ne_eq, not_false_eq_true, if_true]

/-- Witness of C4: the empty string (one empty field). -/
theorem decodeHash_field_count_witness :
    (Split "".toList '$').length ≠ 6 ∧ decodeHash "".toList = .error .ErrInvalidHash :=
  ⟨by decide, decodeHash_field_count "".toList (by decide)⟩

/-- C5: for every 6-field string whose version field is scanned by
`Sscanf("v=%d")` as an integer different from `argon2.Version`, `decodeHash`
fails with `ErrIncompatibleVersion`, whatever the parameter, salt and key
fields contain.  (By `SscanfVersion_fmtInt` every field `v=<n>` with `n` the
decimal text of an `int` is scanned as `n`.) -/
theorem decodeHash_incompatible_version (hashed c0 c1 c2 c3 c4 c5 : List Char) (version : Int)
    (h : Split hashed '$' = [c0, c1, c2, c3, c4, c5])
    (hv : SscanfVersion c2 = .ok version) (hne : version ≠ argon2Version) :
    decodeHash hashed = .error .ErrIncompatibleVersion := by
  rw [decodeHash_fields hashed c0 c1 c2 c3 c4 c5 h]
  simp only [decodeFields, hv, hne, ne_eq, not_false_eq_true, if_true]

/-- Witness of C5: version 18 with parameter, salt and key fields that are
all malformed. -/
theorem decodeHash_incompatible_version_witness :
    (Split "$argon2id$v=18$m=x$!$?".toList '$' =
        ["".toList, "argon2id".toList, "v=18".toList, "m=x".toList, "!".toList, "?".toList] ∧
      SscanfVersion "v=18".toList = .ok 18 ∧ (18 : Int) ≠ argon2Version) ∧
    decodeHash "$argon2id$v=18$m=x$!$?".toList = .error .ErrIncompatibleVersion :=
  ⟨⟨rfl, rfl, by decide⟩,
    decodeHash_incompatible_version "$argon2id$v=18$m=x$!$?".toList _ _ _ _ _ _ 18 rfl rfl
      (by decide)⟩

/-- Counterexample to C6: a salt field with the character `!` makes
`decodeHash` fail with the decoder's `CorruptInputError(2)`, which is not
`ErrInvalidHash`; and a salt field with a line feed in it, which is not
unpadded standard-alphabet base64 either, is accepted (the decoder skips CR
and LF). -/
theorem decodeHash_base64_counterexample :
    (rawStdValid "AA!A".toList = false ∧
      decodeHash "$argon2id$v=19$m=65536,t=3,p=2$AA!A$AAAA".toList =
        .error (.CorruptInputError 2) ∧
      GoError.CorruptInputError 2 ≠ GoError.ErrInvalidHash) ∧
    (rawStdValid "AA\nAA".toList = false ∧
      decodeHash "$argon2id$v=19$m=65536,t=3,p=2$AA\nAA$AAAA".toList =
        .ok (⟨65536, 3, 2, 3, 3⟩, [0, 0, 0], [0, 0, 0])) :=
  ⟨⟨rfl, rfl, by decide⟩, rfl, rfl⟩

/-- C6, amended: for every 6-field string with the supported version and a
parameter field that `Sscanf` accepts, if the salt field or the key field
holds a character that is neither in the standard alphabet nor CR nor LF, or
holds a number of alphabet characters that is 1 modulo 4 (`rawStdAccepted` is
false), then `decodeHash` fails with the `CorruptInputError` of the base64
decoder, passed on unchanged; it is not `ErrInvalidHash`.  (By
`rawStdAccepted_of_valid` unpadded standard-alphabet base64 text is
accepted.) -/
theorem decodeHash_base64_rejected (hashed c0 c1 c2 c3 c4 c5 : List Char) (m t p : Nat)
    (h : Split hashed '$' = [c0, c1, c2, c3, c4, c5])
    (hv : SscanfVersion c2 = .ok argon2Version) (hp : SscanfParams c3 = .ok (m, t, p))
    (hbad : rawStdAccepted c4 = false ∨ rawStdAccepted c5 = false) :
    ∃ offset, decodeHash hashed = .error (.CorruptInputError offset) := by
  rw [decodeHash_fields hashed c0 c1 c2 c3 c4 c5 h]
  simp only [decodeFields, hv, hp, ne_eq, not_true_eq_false, if_false]
  rcases hbad with hb | hb
  · obtain ⟨off, ho⟩ := DecodeString_rejects c4 hb
    exact ⟨off, by rw [ho]⟩
  · rcases decodeLoop_ok_or_corrupt c4 0 [] with ⟨salt, hs⟩ | ⟨off, ho⟩
    · obtain ⟨off, ho⟩ := DecodeString_rejects c5 hb
      refine ⟨off, ?_⟩
      simp only [DecodeString] at ho ⊢
      rw [hs, ho]
    · refine ⟨off, ?_⟩
      simp only [DecodeString]
      rw [ho]

/-- Witness of C6, amended: a key field with a padding character. -/
theorem decodeHash_base64_rejected_witness :
    (Split "$argon2id$v=19$m=65536,t=3,p=2$AAAA$A=".toList '$' =
        ["".toList, "argon2id".toList, "v=19".toList, "m=65536,t=3,p=2".toList, "AAAA".toList,
          "A=".toList] ∧
      SscanfVersion "v=19".toList = .ok argon2Version ∧
      SscanfParams "m=65536,t=3,p=2".toList = .ok (65536, 3, 2) ∧
      (rawStdAccepted "AAAA".toList = false ∨ rawStdAccepted "A=".toList = false)) ∧
    ∃ offset, decodeHash "$argon2id$v=19$m=65536,t=3,p=2$AAAA$A=".toList =
      .error (.CorruptInputError offset) :=
  ⟨⟨rfl, rfl, rfl, Or.inr rfl⟩,
    decodeHash_base64_rejected "$argon2id$v=19$m=65536,t=3,p=2$AAAA$A=".toList _ _ _ _ _ _
      65536 3 2 rfl rfl rfl (Or.inr rfl)⟩

/-- Counterexample to C7: a version field `x=19` (wrong marker) makes
`decodeHash` fail with the scanner's `input does not match format`, which is
not `ErrInvalidHash`; the version fields `v=19abc` (characters after the
integer) and `v= +19` (characters before it) are accepted. -/
theorem decodeHash_version_counterexample :
    (versionExact "x=19".toList = false ∧
      decodeHash "$argon2id$x=19$m=65536,t=3,p=2$AAAA$AAAA".toList =
        .error (.scanError "input does not match format") ∧
      GoError.scanError "input does not match format" ≠ GoError.ErrInvalidHash) ∧
    (versionExact "v=19abc".toList = false ∧
      decodeHash "$argon2id$v=19abc$m=65536,t=3,p=2$AAAA$AAAA".toList =
        .ok (⟨65536, 3, 2, 3, 3⟩, [0, 0, 0], [0, 0, 0])) ∧
    (versionExact "v= +19".toList = false ∧
      decodeHash "$argon2id$v= +19$m=65536,t=3,p=2$AAAA$AAAA".toList =
        .ok (⟨65536, 3, 2, 3, 3⟩, [0, 0, 0], [0, 0, 0])) :=
  ⟨⟨rfl, rfl, by decide⟩, ⟨rfl, rfl⟩, rfl, rfl⟩

/-- C7, amended: for every 6-field string whose version field does not start
with `v=`, then blanks (spaces other than the newline), then an optional sign,
then a decimal digit (`versionShape` is false), `decodeHash` fails with the
error of `fmt.Sscanf`, passed on unchanged (`io.EOF`, `io.ErrUnexpectedEOF` or
one of the scanner's messages); it is not `ErrInvalidHash`.  (By
`versionShape_of_exact` a field that is exactly `v=<integer>` has the shape.) -/
theorem decodeHash_version_rejected (hashed c0 c1 c2 c3 c4 c5 : List Char)
    (h : Split hashed '$' = [c0, c1, c2, c3, c4, c5]) (hbad : versionShape c2 = false) :
    ∃ e, decodeHash hashed = .error e ∧ e.isScanError = true := by
  obtain ⟨e, he, hs⟩ := SscanfVersion_rejects c2 hbad
  refine ⟨e, ?_, hs⟩
  rw [decodeHash_fields hashed c0 c1 c2 c3 c4 c5 h]
  simp only [decodeFields, he]

/-- Witness of C7, amended: a version field with a non-numeric value. -/
theorem decodeHash_version_rejected_witness :
    (Split "$argon2id$v=x$m=65536,t=3,p=2$AAAA$AAAA".toList '$' =
        ["".toList, "argon2id".toList, "v=x".toList, "m=65536,t=3,p=2".toList, "AAAA".toList,
          "AAAA".toList] ∧
      versionShape "v=x".toList = false) ∧
    ∃ e, decodeHash "$argon2id$v=x$m=65536,t=3,p=2$AAAA$AAAA".toList = .error e ∧
      e.isScanError = true :=
  ⟨⟨rfl, rfl⟩,
    decodeHash_version_rejected "$argon2id$v=x$m=65536,t=3,p=2$AAAA$AAAA".toList _ _ _ _ _ _
      rfl rfl⟩

/-- Counterexample to C8: a parameter field with `;` for the first `,`, and
one with parallelism 256, make `decodeHash` fail with the scanner's errors
`input does not match format` and `unsigned integer overflow on token 256`,
which are not `ErrInvalidHash`; a parameter field with extra characters after
the parallelism is accepted; and a parameter field of `2^30 + 3` characters
with the parallelism `1999` written with `2^30 - 11` leading zeros is accepted
with parallelism `1`, the scanner reading the first `2^30` characters only. -/
theorem decodeHash_params_counterexample :
    (paramsExact "m=65536;t=3,p=2".toList = false ∧
      decodeHash "$argon2id$v=19$m=65536;t=3,p=2$AAAA$AAAA".toList =
        .error (.scanError "input does not match format") ∧
      GoError.scanError "input does not match format" ≠ GoError.ErrInvalidHash) ∧
    (decodeHash "$argon2id$v=19$m=65536,t=3,p=256$AAAA$AAAA".toList =
        .error (.scanError "unsigned integer overflow on token 256") ∧
      GoError.scanError "unsigned integer overflow on token 256" ≠ GoError.ErrInvalidHash) ∧
    (paramsExact "m=65536,t=3,p=2junk".toList = false ∧
      decodeHash "$argon2id$v=19$m=65536,t=3,p=2junk$AAAA$AAAA".toList =
        .ok (⟨65536, 3, 2, 3, 3⟩, [0, 0, 0], [0, 0, 0])) ∧
    (digitsValue 0 (List.replicate 1073741813 '0' ++ "1999".toList) = 1999 ∧
      decodeHash ("$argon2id$v=19$m=1,t=1,p=".toList ++ List.replicate 1073741813 '0' ++
        "1999$AAAA$AAAA".toList) = .ok (⟨1, 1, 1, 3, 3⟩, [0, 0, 0], [0, 0, 0])) :=
  ⟨⟨rfl, rfl, by decide⟩, ⟨rfl, by decide⟩, ⟨rfl, rfl⟩,
    (digitsValue_zeros_append 1073741813 "1999".toList).trans rfl,
    decodeHash_limit 1073741813 (by rw [hugeWid_eq])⟩

/-- C8, amended: for every 6-field string with the supported version, if the
first `2^30` characters of the parameter field, which are all that
`fmt.Sscanf` reads, do not start with `m=<uint>,t=<uint>,p=<uint>` (blanks
allowed before each number), or memory or iterations as written there is
`2^32` or more or parallelism is `2^8` or more (`paramsAccepted` is false),
`decodeHash` fails with the error of `fmt.Sscanf`, passed on unchanged (the
scanner's own errors or the range error of `strconv`); it is not
`ErrInvalidHash`.  (By `readParams_of_exact` a field that is exactly
`m=<uint>,t=<uint>,p=<uint>` is read by `readParams`.) -/
theorem decodeHash_params_rejected (hashed c0 c1 c2 c3 c4 c5 : List Char)
    (h : Split hashed '$' = [c0, c1, c2, c3, c4, c5])
    (hv : SscanfVersion c2 = .ok argon2Version)
    (hbad : paramsAccepted (c3.take hugeWid) = false) :
    ∃ e, decodeHash hashed = .error e ∧ e.isScanError = true := by
  obtain ⟨e, he, hs⟩ := SscanfParams_rejects c3 hbad
  refine ⟨e, ?_, hs⟩
  rw [decodeHash_fields hashed c0 c1 c2 c3 c4 c5 h]
  simp only [decodeFields, hv, he, ne_eq, not_true_eq_false, if_false]

/-- Witness of C8, amended: memory `2^32`. -/
theorem decodeHash_params_rejected_witness :
    (Split "$argon2id$v=19$m=4294967296,t=3,p=2$AAAA$AAAA".toList '$' =
        ["".toList, "argon2id".toList, "v=19".toList, "m=4294967296,t=3,p=2".toList,
          "AAAA".toList, "AAAA".toList] ∧
      SscanfVersion "v=19".toList = .ok argon2Version ∧
      paramsAccepted ("m=4294967296,t=3,p=2".toList.take hugeWid) = false) ∧
    ∃ e, decodeHash "$argon2id$v=19$m=4294967296,t=3,p=2$AAAA$AAAA".toList = .error e ∧
      e.isScanError = true :=
  ⟨⟨rfl, rfl, rfl⟩,
    decodeHash_params_rejected "$argon2id$v=19$m=4294967296,t=3,p=2$AAAA$AAAA".toList
      _ _ _ _ _ _ rfl rfl rfl⟩

/-- C9: for every plaintext and every encoded string on which `decodeHash`
fails with error `e`, `Verify` returns `match = false` together with exactly
`e`; the result is the same for every key-derivation function, which is not
called. -/
theorem Verify_decode_error (IDKey : KDF) (plaintext hashed : List Char) (e : GoError)
    (h : decodeHash hashed = .error e) : Verify IDKey plaintext hashed = (false, some e) := by
  simp only [Verify, h]

/-- Witness of C9: a string with five fields. -/
theorem Verify_decode_error_witness :
    decodeHash "$argon2id$v=19$m=65536,t=3,p=2$AAAA".toList = .error .ErrInvalidHash ∧
    Verify zeroKDF "pw".toList "$argon2id$v=19$m=65536,t=3,p=2$AAAA".toList =
      (false, some .ErrInvalidHash) :=
  ⟨rfl, Verify_decode_error zeroKDF "pw".toList _ .ErrInvalidHash rfl⟩

/-- Counterexample to C10: `decodeHash` accepts `$argon2id$v=19$m=0,t=0,p=0$$`
(zero iterations), `$argon2id$v=19$m=8,t=1,p=0$AAAA$AAAA` (zero parallelism)
and `$argon2id$v=19$m=8,t=1,p=1$AAAA$` (an empty key), and on each of them
`Verify`, for every plaintext and every key derivation, does not return:
`argon2.IDKey` panics. -/
theorem Verify_decoded_counterexample :
    (decodeHash "$argon2id$v=19$m=0,t=0,p=0$$".toList = .ok (⟨0, 0, 0, 0, 0⟩, [], []) ∧
      ∀ (IDKey : KDF) (plaintext : List Char),
        Verify IDKey plaintext "$argon2id$v=19$m=0,t=0,p=0$$".toList =
          (false, some (.runtimePanic "argon2: number of rounds too small"))) ∧
    (decodeHash "$argon2id$v=19$m=8,t=1,p=0$AAAA$AAAA".toList =
        .ok (⟨8, 1, 0, 3, 3⟩, [0, 0, 0], [0, 0, 0]) ∧
      ∀ (IDKey : KDF) (plaintext : List Char),
        Verify IDKey plaintext "$argon2id$v=19$m=8,t=1,p=0$AAAA$AAAA".toList =
          (false, some (.runtimePanic "argon2: parallelism degree too low"))) ∧
    (decodeHash "$argon2id$v=19$m=8,t=1,p=1$AAAA$".toList =
        .ok (⟨8, 1, 1, 3, 0⟩, [0, 0, 0], []) ∧
      ∀ (IDKey : KDF) (plaintext : List Char),
        Verify IDKey plaintext "$argon2id$v=19$m=8,t=1,p=1$AAAA$".toList =
          (false, some (.runtimePanic "invalid memory address or nil pointer dereference"))) :=
  ⟨⟨rfl, fun _ _ => rfl⟩, ⟨rfl, fun _ _ => rfl⟩, ⟨rfl, fun _ _ => rfl⟩⟩

/-- C10, amended: for every plaintext and every encoded string that
`decodeHash` accepts as `(p, salt, key)` with at least one iteration, a
parallelism of at least one and a key length other than 0, `Verify` returns no
error, and `match = true` if and only if the key derived from the plaintext,
the decoded salt and the decoded `iterations`, `memory`, `parallelism` and
`keyLength` (not those of `hashParam`) is equal to the decoded key.  (The
allocation of `memory` KiB inside `argon2.IDKey` is taken to succeed.) -/
theorem Verify_decoded (IDKey : KDF) (plaintext hashed : List Char) (p : params)
    (salt key : List Byte) (h : decodeHash hashed = .ok (p, salt, key))
    (ht : 1 ≤ p.iterations) (hp : 1 ≤ p.parallelism) (hk : p.keyLength ≠ 0) :
    (Verify IDKey plaintext hashed).2 = none ∧
      ((Verify IDKey plaintext hashed).1 = true ↔
        IDKey (stringBytes plaintext) salt p.iterations p.memory p.parallelism p.keyLength =
          key) := by
  rw [Verify_ok IDKey plaintext hashed p salt key h ht hp hk]
  simp only [decide_eq_true_eq, true_and]
  exact eq_comm

/-- Witness of C10, amended: parameters other than the defaults and a 3-byte
key the sample function derives for a 2-byte password. -/
theorem Verify_decoded_witness :
    (decodeHash "$argon2id$v=19$m=8,t=1,p=1$AAAA$AgIC".toList =
        .ok (⟨8, 1, 1, 3, 3⟩, [0, 0, 0], [2, 2, 2]) ∧
      1 ≤ (⟨8, 1, 1, 3, 3⟩ : params).iterations ∧
      1 ≤ (⟨8, 1, 1, 3, 3⟩ : params).parallelism ∧
      (⟨8, 1, 1, 3, 3⟩ : params).keyLength ≠ 0) ∧
    ((Verify lengthKDF "pw".toList "$argon2id$v=19$m=8,t=1,p=1$AAAA$AgIC".toList).2 = none ∧
      ((Verify lengthKDF "pw".toList "$argon2id$v=19$m=8,t=1,p=1$AAAA$AgIC".toList).1 = true ↔
        lengthKDF (stringBytes "pw".toList) [0, 0, 0] 1 8 1 3 = [2, 2, 2])) :=
  ⟨⟨rfl, by decide, by decide, by decide⟩,
    Verify_decoded lengthKDF "pw".toList _ ⟨8, 1, 1, 3, 3⟩ [0, 0, 0] [2, 2, 2] rfl
      (by decide) (by decide) (by decide)⟩

/-- C11: for every version, `params` value, salt and key, the string built by
the format of `Run` splits on `$` into exactly 6 fields: the empty field, the
tag `argon2id`, `v=<version>`, `m=<memory>,t=<iterations>,p=<parallelism>`,
the base64 of the salt and the base64 of the key.  No `$` is in a decimal
number or in base64 text. -/
theorem Split_encoded (version : Int) (p : params) (salt key : List Byte) :
    Split (Sprintf version p.memory p.iterations p.parallelism (EncodeToString salt)
        (EncodeToString key)) '$' =
      [[], "argon2id".toList, "v=".toList ++ fmtInt version,
        "m=".toList ++ fmtUint p.memory ++ ",t=".toList ++ fmtUint p.iterations ++
          ",p=".toList ++ fmtUint p.parallelism,
        EncodeToString salt, EncodeToString key] ∧
    (Split (Sprintf version p.memory p.iterations p.parallelism (EncodeToString salt)
        (EncodeToString key)) '$').length = 6 := by
  have h := Split_Sprintf_any version p.memory p.iterations p.parallelism _ _
    (EncodeToString_no_dollar salt) (EncodeToString_no_dollar key)
  refine ⟨h, ?_⟩
  rw [h]
  rfl

/-- C12: for every plaintext and every salt `s` returned by the random source,
`Run` returns without error the string `$argon2id$v=19$m=65536,t=3,p=2$`
followed by the unpadded base64 of `s`, a `$` and the unpadded base64 of the
key derived from the plaintext and `s` with 3 iterations, 65536 KiB of memory,
parallelism 2 and key length 32: the parameters are those of `hashParam`. -/
theorem Run_string (IDKey : KDF) (randRead : RandSource) (text : List Char)
    (s : List Byte) (hrand : randRead 16 = .ok s) :
    Run IDKey randRead text =
      ("$argon2id$v=19$m=65536,t=3,p=2$".toList ++ EncodeToString s ++ "$".toList ++
        EncodeToString (IDKey (stringBytes text) s 3 65536 2 32), none) := by
  have h := Run_ok IDKey randRead text s hrand
  have e1 : fmtInt argon2Version = "19".toList := by decide
  have e2 : fmtUint hashParam.memory = "65536".toList := by decide
  have e3 : fmtUint hashParam.iterations = "3".toList := by decide
  have e4 : fmtUint hashParam.parallelism = "2".toList := by decide
  rw [h]
  simp only [Sprintf, e1, e2, e3, e4]
  simp [hashParam]

/-- Witness of C12: the sample random source and key-derivation function on
the password of the tests. -/
theorem Run_string_witness :
    fixedRand 7 16 = .ok (List.replicate 16 7) ∧
    Run lengthKDF (fixedRand 7) "strongP@S$w0rd".toList =
      ("$argon2id$v=19$m=65536,t=3,p=2$".toList ++ EncodeToString (List.replicate 16 7) ++
        "$".toList ++
        EncodeToString (lengthKDF (stringBytes "strongP@S$w0rd".toList) (List.replicate 16 7)
          3 65536 2 32), none) :=
  ⟨rfl, Run_string lengthKDF (fixedRand 7) "strongP@S$w0rd".toList (List.replicate 16 7) rfl⟩

/-- Counterexample to C13: in the hash `Run` builds for the password of the
tests (sample key-derivation function and random source), the last character
of the key field, `4`, is replaced by `5`, another character of the base64
alphabet; `Verify` returns `match = true`.  The two characters differ in the
low two bits only, which the decoder drops after the 32 bytes of the key. -/
theorem Verify_mutated_counterexample :
    (Run lengthKDF (fixedRand 7) "strongP@S$w0rd".toList).1 =
      "$argon2id$v=19$m=65536,t=3,p=2$BwcHBwcHBwcHBwcHBwcHBw$Dg4ODg4ODg4ODg4ODg4ODg4ODg4ODg4ODg4ODg4ODg4".toList ∧
    ('5' ∈ encodeStd ∧ '5' ≠ '4') ∧
    Verify lengthKDF "strongP@S$w0rd".toList
      "$argon2id$v=19$m=65536,t=3,p=2$BwcHBwcHBwcHBwcHBwcHBw$Dg4ODg4ODg4ODg4ODg4ODg4ODg4ODg4ODg4ODg4ODg5".toList =
      (true, none) :=
  ⟨by decide, by decide, rfl⟩

/-- C13, amended: for every plaintext `P` and every hash `Run(P)` builds (the
key-derivation function returning the 32 requested bytes), and every string
obtained from it by replacing one character `c` of the key field by a
different character `c2` of the base64 alphabet, where a replacement of the
last character changes more than its two low bits, `Verify(P, mutated)`
returns `match = false` with no error.  The key field is `pre ++ c :: post`
and becomes `pre ++ c2 :: post`. -/
theorem Verify_mutated_key (IDKey : KDF) (randRead : RandSource) (P : List Char)
    (salt : List Byte) (pre post : List Char) (c c2 : Char)
    (hrand : randRead 16 = .ok salt)
    (hlen : (IDKey (stringBytes P) salt 3 65536 2 32).length = 32)
    (hE : EncodeToString (IDKey (stringBytes P) salt 3 65536 2 32) = pre ++ c :: post)
    (hc2 : c2 ∈ encodeStd) (hne : c2 ≠ c)
    (hbits : post = [] → decodeMap c2 / 4 ≠ decodeMap c / 4) :
    Run IDKey randRead P =
      ("$argon2id$v=19$m=65536,t=3,p=2$".toList ++ EncodeToString salt ++ "$".toList ++
        (pre ++ c :: post), none) ∧
    Verify IDKey P ("$argon2id$v=19$m=65536,t=3,p=2$".toList ++ EncodeToString salt ++
      "$".toList ++ (pre ++ c2 :: post)) = (false, none) := by
  constructor
  · rw [Run_ok IDKey randRead P salt hrand, Sprintf_default]
    exact congrArg (fun x => (_ ++ x, none)) hE
  · obtain ⟨hd, k, hk, hkl, hkne⟩ := changed_key_decodes _ pre post c c2 hlen hE hc2 hne hbits
    have hdec := decodeHash_Sprintf_text hashParam.memory hashParam.iterations
      hashParam.parallelism (EncodeToString salt) (pre ++ c2 :: post) salt k (by decide)
      (by decide) (by decide) (EncodeToString_no_dollar salt) hd
      (DecodeString_EncodeToString salt) hk
    rw [Sprintf_default] at hdec
    rw [Verify_ok IDKey P _ _ _ _ hdec (show 1 ≤ hashParam.iterations by decide)
      (show 1 ≤ hashParam.parallelism by decide)
      (by show _ % 2 ^ 32 ≠ 0; rw [hkl]; decide)]
    simp only [hkl]
    have e : IDKey (stringBytes P) salt hashParam.iterations hashParam.memory
        hashParam.parallelism (32 % 2 ^ 32) = IDKey (stringBytes P) salt 3 65536 2 32 := rfl
    rw [e]
    simp [hkne]

/-- Witness of C13, amended: the first character of the key field of the hash
of the counterexample, `D`, replaced by `E`. -/
theorem Verify_mutated_key_witness :
    (fixedRand 7 16 = .ok (List.replicate 16 7) ∧
      (lengthKDF (stringBytes "strongP@S$w0rd".toList) (List.replicate 16 7)
        3 65536 2 32).length = 32 ∧
      EncodeToString (lengthKDF (stringBytes "strongP@S$w0rd".toList) (List.replicate 16 7)
        3 65536 2 32) =
        [] ++ 'D' :: "g4ODg4ODg4ODg4ODg4ODg4ODg4ODg4ODg4ODg4ODg4".toList ∧
      'E' ∈ encodeStd ∧ 'E' ≠ 'D' ∧
      ("g4ODg4ODg4ODg4ODg4ODg4ODg4ODg4ODg4ODg4ODg4".toList = [] →
        decodeMap 'E' / 4 ≠ decodeMap 'D' / 4)) ∧
    (Run lengthKDF (fixedRand 7) "strongP@S$w0rd".toList =
      ("$argon2id$v=19$m=65536,t=3,p=2$".toList ++ EncodeToString (List.replicate 16 7) ++
        "$".toList ++ ([] ++ 'D' :: "g4ODg4ODg4ODg4ODg4ODg4ODg4ODg4ODg4ODg4ODg4".toList),
        none) ∧
    Verify lengthKDF "strongP@S$w0rd".toList
      ("$argon2id$v=19$m=65536,t=3,p=2$".toList ++ EncodeToString (List.replicate 16 7) ++
        "$".toList ++ ([] ++ 'E' :: "g4ODg4ODg4ODg4ODg4ODg4ODg4ODg4ODg4ODg4ODg4".toList)) =
      (false, none)) :=
  ⟨⟨rfl, by simp [lengthKDF], by decide, by decide, by decide,
      fun h => absurd h (by decide)⟩,
    Verify_mutated_key lengthKDF (fixedRand 7) "strongP@S$w0rd".toList (List.replicate 16 7)
      [] "g4ODg4ODg4ODg4ODg4ODg4ODg4ODg4ODg4ODg4ODg4".toList 'D' 'E' rfl
      (by simp [lengthKDF]) (by decide) (by decide) (by decide)
      (fun h => absurd h (by decide))⟩

/-- Counterexample to C14: a string with zero memory, iterations and
parallelism and with empty salt and key fields is accepted; the five fields
of the returned `params` are all zero. -/
theorem decodeHash_zero_counterexample :
    decodeHash "$argon2id$v=19$m=0,t=0,p=0$$".toList = .ok (⟨0, 0, 0, 0, 0⟩, [], []) :=
  rfl

/-- C14, amended: every `params` value returned by a successful `decodeHash`
has all five fields within the range of their Go types (memory, iterations,
salt length and key length below `2^32`, parallelism below `2^8`).  The
fields are not checked for positivity. -/
theorem decodeHash_fields_inRange (hashed : List Char) (p : params) (salt key : List Byte)
    (h : decodeHash hashed = .ok (p, salt, key)) : p.inRange :=
  decodeHash_ok_inRange hashed p salt key h

/-- Witness of C14, amended: parameters other than the defaults. -/
theorem decodeHash_fields_inRange_witness :
    decodeHash "$argon2id$v=19$m=8,t=1,p=1$AAAA$AgIC".toList =
        .ok (⟨8, 1, 1, 3, 3⟩, [0, 0, 0], [2, 2, 2]) ∧
    (⟨8, 1, 1, 3, 3⟩ : params).inRange :=
  ⟨rfl, decodeHash_fields_inRange "$argon2id$v=19$m=8,t=1,p=1$AAAA$AgIC".toList
    ⟨8, 1, 1, 3, 3⟩ [0, 0, 0] [2, 2, 2] rfl⟩

/-- Counterexample to C15: a 6-field string whose leading field is `junk` and
whose algorithm tag is `bcrypt` is accepted, with the same result as the
string that starts with `$argon2id`. -/
theorem decodeHash_tag_counterexample :
    decodeHash "junk$bcrypt$v=19$m=65536,t=3,p=2$AAAA$AAAA".toList =
      .ok (⟨65536, 3, 2, 3, 3⟩, [0, 0, 0], [0, 0, 0]) :=
  rfl

/-- C15, amended: `decodeHash` validates four of the six fields, the version,
the parameters, the salt and the key.  The leading field and the algorithm
tag are not read: two 6-field strings with the same last four fields have the
same result, whatever their first two fields are. -/
theorem decodeHash_first_two_ignored (hashed hashed2 a0 a1 b0 b1 c2 c3 c4 c5 : List Char)
    (h : Split hashed '$' = [a0, a1, c2, c3, c4, c5])
    (h2 : Split hashed2 '$' = [b0, b1, c2, c3, c4, c5]) :
    decodeHash hashed = decodeHash hashed2 := by
  rw [decodeHash_fields hashed a0 a1 c2 c3 c4 c5 h,
    decodeHash_fields hashed2 b0 b1 c2 c3 c4 c5 h2]

/-- Witness of C15, amended: the tag `argon2id` against the tag `bcrypt` after
a non-empty leading field, with a malformed parameter field. -/
theorem decodeHash_first_two_ignored_witness :
    (Split "$argon2id$v=19$m=x$AAAA$AAAA".toList '$' =
        ["".toList, "argon2id".toList, "v=19".toList, "m=x".toList, "AAAA".toList,
          "AAAA".toList] ∧
      Split "junk$bcrypt$v=19$m=x$AAAA$AAAA".toList '$' =
        ["junk".toList, "bcrypt".toList, "v=19".toList, "m=x".toList, "AAAA".toList,
          "AAAA".toList]) ∧
    decodeHash "$argon2id$v=19$m=x$AAAA$AAAA".toList =
      decodeHash "junk$bcrypt$v=19$m=x$AAAA$AAAA".toList :=
  ⟨⟨rfl, rfl⟩,
    decodeHash_first_two_ignored "$argon2id$v=19$m=x$AAAA$AAAA".toList
      "junk$bcrypt$v=19$m=x$AAAA$AAAA".toList _ _ _ _ _ _ _ _ rfl rfl⟩

/-- C16: `decodeHash` is total on arbitrary text.  For every input string it
returns either an error (`ErrInvalidHash`, `ErrIncompatibleVersion`, an error
of `fmt.Sscanf` or a `CorruptInputError` of base64) or a `(params, salt, key)`
triple; it never panics; and when the field count check has passed, the
fields at the indices 2, 3, 4 and 5 exist. -/
theorem decodeHash_total (hashed : List Char) :
    ((∃ e, decodeHash hashed = .error e ∧
        (e = .ErrInvalidHash ∨ e = .ErrIncompatibleVersion ∨ e.isScanError = true ∨
          ∃ offset, e = .CorruptInputError offset)) ∨
      ∃ p salt key, decodeHash hashed = .ok (p, salt, key)) ∧
    (∀ msg, decodeHash hashed ≠ .error (.runtimePanic msg)) ∧
    ((Split hashed '$').length ≠ 6 ∨
      ∃ c2 c3 c4 c5, (Split hashed '$')[2]? = some c2 ∧ (Split hashed '$')[3]? = some c3 ∧
        (Split hashed '$')[4]? = some c4 ∧ (Split hashed '$')[5]? = some c5) := by
  refine ⟨?_, ?_, ?_⟩
  · cases hd : decodeHash hashed with
    | error e => exact Or.inl ⟨e, rfl, decodeHash_error hashed e hd⟩
    | ok r =>
      obtain ⟨p, salt, key⟩ := r
      exact Or.inr ⟨p, salt, key, rfl⟩
  · intro msg hd
    rcases decodeHash_error hashed _ hd with h | h | h | ⟨off, h⟩
    · cases h
    · cases h
    · cases h
    · cases h
  · by_cases h6 : (Split hashed '$').length = 6
    · obtain ⟨c0, c1, c2, c3, c4, c5, hs⟩ := length_six _ h6
      right
      rw [hs]
      exact ⟨c2, c3, c4, c5, rfl, rfl, rfl, rfl⟩
    · exact Or.inl h6

/-- Counterexample to C17: the strings `x` and `xx` are different, and
`RunSha1("x", "xx")` is `RunSha1("xx", "x")`, here with a digest without
collisions (by `RunSha1_eq` with every digest: both calls hash `xxx`). -/
theorem RunSha1_order_counterexample :
    "x".toList ≠ "xx".toList ∧ Function.Injective idDigest ∧
    RunSha1 idDigest ["x".toList, "xx".toList] = RunSha1 idDigest ["xx".toList, "x".toList] :=
  ⟨by decide, fun _ _ h => h, rfl⟩

/-- C17, amended: with a digest without collisions, for every two strings `a`
and `b` whose concatenations `a + b` and `b + a` differ as byte sequences,
`RunSha1(a, b)` differs from `RunSha1(b, a)`.  That `a` and `b` differ does
not suffice. -/
theorem RunSha1_order (sha1Sum : Digest) (a b : List Char)
    (hinj : Function.Injective sha1Sum)
    (h : stringBytes a ++ stringBytes b ≠ stringBytes b ++ stringBytes a) :
    RunSha1 sha1Sum [a, b] ≠ RunSha1 sha1Sum [b, a] := by
  intro heq
  rw [RunSha1_eq, RunSha1_eq] at heq
  have h1 := hinj (hexEncodeToString_inj _ _ heq)
  simp only [List.flatten_cons, List.flatten_nil, List.append_nil, stringBytes_append] at h1
  exact h h1

/-- Witness of C17, amended: the two strings of `TestRunSha1Sum`. -/
theorem RunSha1_order_witness :
    (Function.Injective idDigest ∧
      stringBytes "test1".toList ++ stringBytes "test2".toList ≠
        stringBytes "test2".toList ++ stringBytes "test1".toList) ∧
    RunSha1 idDigest ["test1".toList, "test2".toList] ≠
      RunSha1 idDigest ["test2".toList, "test1".toList] :=
  ⟨⟨fun _ _ h => h, by decide⟩,
    RunSha1_order idDigest "test1".toList "test2".toList (fun _ _ h => h) (by decide)⟩

/-- Counterexample to C18: a salt of `2^32` bytes is accepted and the salt
length of the returned `params` is 0, the conversion `uint32(len(salt))`
having dropped the upper bits. -/
theorem decodeHash_length_counterexample :
    decodeHash (Sprintf argon2Version 65536 3 2
        (EncodeToString (List.replicate (2 ^ 32) 0)) (EncodeToString [])) =
      .ok (⟨65536, 3, 2, 0, 0⟩, List.replicate (2 ^ 32) 0, []) ∧
    (List.replicate (2 ^ 32) (0 : Byte)).length ≠ 0 := by
  constructor
  · rw [decodeHash_Sprintf 65536 3 2 (List.replicate (2 ^ 32) 0) [] (by norm_num)
      (by norm_num) (by norm_num)]
    simp only [List.length_replicate, Nat.mod_self, List.length_nil, Nat.zero_mod]
  · rw [List.length_replicate]
    norm_num

/-- C18, amended: for every string that `decodeHash` accepts, the salt length
and the key length of the returned `params` are recomputed from the decoded
bytes as `uint32` values: they are the numbers of bytes of the returned salt
and key modulo `2^32`, hence these numbers themselves for a salt and a key of
fewer than `2^32` bytes. -/
theorem decodeHash_lengths (hashed : List Char) (p : params) (salt key : List Byte)
    (h : decodeHash hashed = .ok (p, salt, key)) :
    (p.saltLength = salt.length % 2 ^ 32 ∧ p.keyLength = key.length % 2 ^ 32) ∧
    (salt.length < 2 ^ 32 → p.saltLength = salt.length) ∧
    (key.length < 2 ^ 32 → p.keyLength = key.length) := by
  obtain ⟨hs, hk⟩ := decodeHash_ok_lengths hashed p salt key h
  exact ⟨⟨hs, hk⟩, fun hlt => by rw [hs, Nat.mod_eq_of_lt hlt],
    fun hlt => by rw [hk, Nat.mod_eq_of_lt hlt]⟩

/-- Witness of C18, amended: a 3-byte salt and a 2-byte key. -/
theorem decodeHash_lengths_witness :
    decodeHash "$argon2id$v=19$m=8,t=1,p=1$AAAA$AgI".toList =
        .ok (⟨8, 1, 1, 3, 2⟩, [0, 0, 0], [2, 2]) ∧
    (((⟨8, 1, 1, 3, 2⟩ : params).saltLength = ([0, 0, 0] : List Byte).length % 2 ^ 32 ∧
        (⟨8, 1, 1, 3, 2⟩ : params).keyLength = ([2, 2] : List Byte).length % 2 ^ 32) ∧
      (([0, 0, 0] : List Byte).length < 2 ^ 32 →
        (⟨8, 1, 1, 3, 2⟩ : params).saltLength = ([0, 0, 0] : List Byte).length) ∧
      (([2, 2] : List Byte).length < 2 ^ 32 →
        (⟨8, 1, 1, 3, 2⟩ : params).keyLength = ([2, 2] : List Byte).length)) :=
  ⟨rfl, decodeHash_lengths "$argon2id$v=19$m=8,t=1,p=1$AAAA$AgI".toList ⟨8, 1, 1, 3, 2⟩
    [0, 0, 0] [2, 2] rfl⟩

/-- Counterexample to C19: the string with memory written `065536` is accepted
as the same parameters, salt and key as the string with `65536`, and
re-encoding them gives the second string, not the first. -/
theorem decodeHash_canonical_counterexample :
    decodeHash "$argon2id$v=19$m=065536,t=3,p=2$AAAA$AAAA".toList =
      .ok (⟨65536, 3, 2, 3, 3⟩, [0, 0, 0], [0, 0, 0]) ∧
    decodeHash "$argon2id$v=19$m=65536,t=3,p=2$AAAA$AAAA".toList =
      .ok (⟨65536, 3, 2, 3, 3⟩, [0, 0, 0], [0, 0, 0]) ∧
    Sprintf argon2Version 65536 3 2 (EncodeToString [0, 0, 0]) (EncodeToString [0, 0, 0]) =
      "$argon2id$v=19$m=65536,t=3,p=2$AAAA$AAAA".toList ∧
    "$argon2id$v=19$m=65536,t=3,p=2$AAAA$AAAA".toList ≠
      "$argon2id$v=19$m=065536,t=3,p=2$AAAA$AAAA".toList :=
  ⟨rfl, rfl, by decide, by decide⟩

/-- C19, amended: the text format has a canonical form.  For every string `s`
that `decodeHash` accepts as `(params, salt, key)`, re-encoding the supported
version, `params`, `salt` and `key` with the format of `Run` yields a string
that `decodeHash` accepts as the same `(params, salt, key)`.  The re-encoded
string need not be `s`. -/
theorem decodeHash_reencoded (hashed : List Char) (p : params) (salt key : List Byte)
    (h : decodeHash hashed = .ok (p, salt, key)) :
    decodeHash (Sprintf argon2Version p.memory p.iterations p.parallelism
      (EncodeToString salt) (EncodeToString key)) = .ok (p, salt, key) :=
  decodeHash_reencode hashed p salt key h

/-- Witness of C19, amended: the string with memory written `065536`. -/
theorem decodeHash_reencoded_witness :
    decodeHash "$argon2id$v=19$m=065536,t=3,p=2$AAAA$AAAA".toList =
      .ok (⟨65536, 3, 2, 3, 3⟩, [0, 0, 0], [0, 0, 0]) ∧
    decodeHash (Sprintf argon2Version 65536 3 2 (EncodeToString [0, 0, 0])
      (EncodeToString [0, 0, 0])) = .ok (⟨65536, 3, 2, 3, 3⟩, [0, 0, 0], [0, 0, 0]) :=
  ⟨rfl, decodeHash_reencoded "$argon2id$v=19$m=065536,t=3,p=2$AAAA$AAAA".toList
    ⟨65536, 3, 2, 3, 3⟩ [0, 0, 0] [0, 0, 0] rfl⟩

/-- C20: `RunSha1` depends only on the concatenation of its arguments.  For
all argument lists `xs` and `ys` whose concatenations are equal,
`RunSha1(xs...) = RunSha1(ys...)`; `RunSha1(a, b) = RunSha1(a + b)` and
`RunSha1() = RunSha1("")`; the result is the lowercase hex encoding of the
digest of the bytes of the concatenation. -/
theorem RunSha1_concat (sha1Sum : Digest) (xs ys : List (List Char)) (a b : List Char)
    (h : xs.flatten = ys.flatten) :
    RunSha1 sha1Sum xs = RunSha1 sha1Sum ys ∧
    RunSha1 sha1Sum [a, b] = RunSha1 sha1Sum [a ++ b] ∧
    RunSha1 sha1Sum [] = RunSha1 sha1Sum [[]] ∧
    RunSha1 sha1Sum xs = hexEncodeToString (sha1Sum (stringBytes xs.flatten)) := by
  refine ⟨?_, ?_, ?_, RunSha1_eq sha1Sum xs⟩
  · rw [RunSha1_eq, RunSha1_eq, h]
  · rw [RunSha1_eq, RunSha1_eq]
    simp
  · rw [RunSha1_eq, RunSha1_eq]
    simp

/-- Witness of C20: `RunSha1("ab", "c")` and `RunSha1("a", "bc")`. -/
theorem RunSha1_concat_witness :
    ["ab".toList, "c".toList].flatten = ["a".toList, "bc".toList].flatten ∧
    (RunSha1 idDigest ["ab".toList, "c".toList] = RunSha1 idDigest ["a".toList, "bc".toList] ∧
      RunSha1 idDigest ["test1".toList, "test2".toList] =
        RunSha1 idDigest ["test1".toList ++ "test2".toList] ∧
      RunSha1 idDigest [] = RunSha1 idDigest [[]] ∧
      RunSha1 idDigest ["ab".toList, "c".toList] =
        hexEncodeToString (idDigest (stringBytes ["ab".toList, "c".toList].flatten))) :=
  ⟨rfl, RunSha1_concat idDigest ["ab".toList, "c".toList] ["a".toList, "bc".toList]
    "test1".toList "test2".toList rfl⟩

end Hash
